import Mathlib

/-!
Verification of the UHDM-to-Yosys lowering engine (`UhdmAst.cc`, upstream
build) against its natural-language specification.

The development shallowly embeds the range-flattening engine
(`add_multirange_wire`, `add_multirange_attribute`, `convert_range`,
`convert_packed_unpacked_range`), the struct path expander (`expand_dot`,
`convert_dot`, `get_max_offset`), the memory detection pass
(`check_memories`), the scope table discipline (`setup_current_scope`,
the registrations performed by `simplify`, `clear_current_scope` inside
`process_design`), and the module specialization registry
(`UhdmAst::process_module`, instance branch).

Machine integers of the C++ code are modelled as `Int` (the values involved
in the verified properties stay well inside the 32-bit range where the
C++ `int`/`uint32_t` arithmetic agrees with `Int`).  Yosys `log_assert` /
`log_error` aborts are modelled by returning `none` from an
`Option`-valued embedding.
-/

namespace UhdmVerify

/-- Arithmetic expression nodes built by the rewriting engine: models the
`AST::AstNode` subtrees of types `AST_CONSTANT`, `AST_ADD`, `AST_SUB`,
`AST_MUL` that `convert_range`, `expand_dot` and `convert_dot` construct
via `mkconst_int` and `new AST::AstNode(...)`. -/
inductive RExpr where
  | const (n : Int)
  | add (a b : RExpr)
  | sub (a b : RExpr)
  | mul (a b : RExpr)
deriving Repr, DecidableEq

/-- Value of an expression subtree after constant folding (the target
system's `simplify` reduces such trees to a single `AST_CONSTANT`). -/
def RExpr.eval : RExpr → Int
  | .const n => n
  | .add a b => a.eval + b.eval
  | .sub a b => a.eval - b.eval
  | .mul a b => a.eval * b.eval

/-- Models `AST::AstNode::isConst`-style check used at
`struct_range->children[0]->type == AST::AST_CONSTANT`. -/
def RExpr.isConst : RExpr → Bool
  | .const _ => true
  | _ => false

/-- An `AST_RANGE` node with two expression children (`range_left`,
`range_right`), as produced by the rewriting functions. -/
structure RangeE where
  left : RExpr
  right : RExpr
deriving Repr, DecidableEq

/-- An already-constant `AST_RANGE` node attached to a declaration: its two
bounds after constant folding, plus the node's `range_swapped` flag.
`right = none` models a range node with a single child (the code
duplicates the single bound in `add_multirange_attribute`). -/
structure RangeN where
  left : Int
  right : Option Int
  swapped : Bool
deriving Repr, DecidableEq

/-- `make_range(left, right)`: a pre-validated two-child constant range. -/
def make_range (left right : Int) : RangeN := ⟨left, some right, false⟩

/-- Effective right bound of a constant range node: the second child, or
the duplicated first child (`ranges[i]->children.push_back(clone)`). -/
def RangeN.rightVal (r : RangeN) : Int := r.right.getD r.left

/-- One step of `add_multirange_attribute`: the two entries pushed onto
`wire_node->multirange_dimensions` for one range — `min(c0, c1)` and
`max(c0, c1) - min(c0, c1) + 1`. -/
def amaEntries (r : RangeN) : List Int :=
  [min r.left r.rightVal, max r.left r.rightVal - min r.left r.rightVal + 1]

/-- `add_multirange_attribute(wire_node, ranges)`: returns the entries
appended to `multirange_dimensions`, the flags appended to
`multirange_swapped`, and the returned `size` (product of the widths).
The `simplify` loop and the `AST_CONSTANT` asserts are already discharged
by `RangeN` carrying constant bounds. -/
def add_multirange_attribute : List RangeN → List Int × List Bool × Int
  | [] => ([], [], 1)
  | r :: rest =>
      let (ds, ss, sz) := add_multirange_attribute rest
      (amaEntries r ++ ds, r.swapped :: ss, (max r.left r.rightVal - min r.left r.rightVal + 1) * sz)

/-- The loop of `convert_range` that fills `single_elem_size` before the
reversal: `for (j = 0; j + 1 < dims.size(); j += 2) elem_size *= dims[j+1] - dims[j]`,
collecting each intermediate `elem_size`. -/
def sesAux : List Int → Int → List Int
  | a :: b :: rest, es => (es * (b - a)) :: sesAux rest (es * (b - a))
  | [_], _ => []
  | [], _ => []

/-- The `single_elem_size` vector of `convert_range`: `1` followed by the
running products, then reversed (`std::reverse`). -/
def singleElemSizes (dims : List Int) : List Int :=
  ((1 : Int) :: sesAux dims 1).reverse

/-- One selector of an access expression (`id->children[i]`): an
`AST_RANGE` node holding one or two expression children. -/
structure Sel where
  first : RExpr
  second : Option RExpr
deriving Repr, DecidableEq

/-- Default selector used for the (unreachable, asserted) out-of-bounds
vector access `id->children[i]`. -/
def defaultSel : Sel := ⟨.const 0, none⟩

/-- `convert_range(id, packed_ranges, unpacked_ranges, i)`: rewrites the
selector list `sels` (the children of the identifier `id`) against a
declaration whose `multirange_dimensions` are `dims` and whose
`multirange_swapped` flags are `swapped`, starting at selector `i`.
Faithful to `UhdmAst.cc:153-215`; the `log_assert`s hold in every context
in which the theorems below invoke it. -/
def convert_range (dims : List Int) (swapped : List Bool) (sels : List Sel) (i : Nat) :
    RangeE :=
  let ses := singleElemSizes dims
  let prev : Option RangeE :=
    if i + 1 < sels.length then some (convert_range dims swapped sels (i + 1)) else none
  if sels.length = 0 ∧ i = 0 then
    ⟨.const (ses.getD i 0 - 1), .const 0⟩
  else
    let sel := sels.getD i defaultSel
    let rl0 : RExpr := sel.first
    let rr0 : RExpr := sel.second.getD sel.first
    let isSwapped : Bool := (!swapped.isEmpty) && swapped.getD (swapped.length - i - 1) false
    let rl1 : RExpr :=
      if isSwapped then
        .sub (.const (dims.getD (dims.length - i * 2 - 1) 0 -
                      dims.getD (dims.length - i * 2 - 2) 0 - 1)) rl0
      else rl0
    let rr1 : RExpr :=
      if isSwapped then
        .sub (.const (dims.getD (dims.length - i * 2 - 1) 0 -
                      dims.getD (dims.length - i * 2 - 2) 0 - 1)) rr0
      else rr0
    let rl2 : RExpr := .sub (.mul (.add rl1 (.const 1)) (.const (ses.getD (i + 1) 0))) (.const 1)
    let rr2 : RExpr := .mul rr1 (.const (ses.getD (i + 1) 0))
    match prev with
    | some res =>
        let rr3 : RExpr := .add rr2 res.right
        ⟨.sub (.add rr3 res.left) res.right, rr3⟩
    | none => ⟨rl2, rr2⟩
  termination_by sels.length - i

/-- The declared range `[w-1:0]` of a dimension of width `w`, as the design
database reports it for a canonically declared dimension. -/
def canonRange (w : Int) : RangeN := ⟨w - 1, some 0, false⟩

/-- `[0, w1, 0, w2, ...]`: the `multirange_dimensions` contents produced by
`add_multirange_attribute` for canonical `[w-1:0]` dimensions of widths
`ws` (each entry pair is the dimension's minimum bound and width). -/
def interleave01 : List Int → List Int
  | [] => []
  | w :: t => 0 :: w :: interleave01 t

/-- Running products `[e*w1, e*w1*w2, ...]` — the values the
`single_elem_size` loop accumulates over canonical dimensions. -/
def partialProds : List Int → Int → List Int
  | [], _ => []
  | w :: t, e => (e * w) :: partialProds t (e * w)

/-- Row-major flattened offset: `Σ index_i * Π (w_j for j > i)` over
dimension widths `ws` (declared order) and per-dimension indices `vs`.
This is the specification's formula, stated independently of the code. -/
def rowMajor : List Int → List Int → Int
  | _ :: ws, v :: vs => v * ws.prod + rowMajor ws vs
  | _, _ => 0

/-- Node kinds (`AST::AstNodeType`) distinguished by the verified code
paths. -/
inductive NType where
  | wire
  | memory
  | param
  | localparam
  | ident
  | typedefT
  | enumT
  | strct
  | packageT
  | other
deriving Repr, DecidableEq

/-- A member of a struct type node: either an `AST_STRUCT_ITEM` (scalar
field with resolved `range_left`/`range_right`) or a nested `AST_STRUCT`
(whose own `range_left`/`range_right` node fields are also carried, with
`-1` for "not yet set" as in yosys). -/
inductive SElem where
  | item (nm : String) (left right : Int)
  | strct (nm : String) (left right : Int) (children : List SElem)

/-- Field name of a struct member. -/
def SElem.name : SElem → String
  | .item nm _ _ => nm
  | .strct nm _ _ _ => nm

/-- The `range_left` node field of a struct member. -/
def SElem.range_left : SElem → Int
  | .item _ l _ => l
  | .strct _ l _ _ => l

/-- The `range_right` node field of a struct member. -/
def SElem.range_right : SElem → Int
  | .item _ _ r => r
  | .strct _ _ r _ => r

/-- Children of a struct member (`[]` for an `AST_STRUCT_ITEM`, whose
children are its range nodes, not named fields). -/
def SElem.childrenOf : SElem → List SElem
  | .item _ _ _ => []
  | .strct _ _ _ cs => cs

/-- A child node of a declaration: the leading `AST_WIRETYPE` reference,
an attached constant `AST_RANGE`, or an identifier child (used by the
`$readmemh` call nodes whose second child names the loaded memory). -/
inductive CNode where
  | wiretypeC (s : String)
  | rangeC (r : RangeN)
  | identC (s : String)
deriving Repr, DecidableEq

/-- The `str` field of a child node. -/
def CNode.strOf : CNode → String
  | .wiretypeC s => s
  | .rangeC _ => ""
  | .identC s => s

/-- A declaration node (`AST_WIRE` / `AST_PARAMETER` / `AST_LOCALPARAM` /
`AST_MEMORY`, or any node visited by `check_memories`), with exactly the
`AST::AstNode` fields and attributes the verified functions read or
write.  `packed_ranges`/`unpacked_ranges` model the attribute of the same
name (`none` = attribute absent); `wiretype` models the `ID::wiretype`
attribute together with its `id2ast` struct node; `selfStruct` carries the
node's own struct content when `ntype = .strct`; `force_convert` models
the `ID::force_convert` attribute's constant value. -/
structure WNode where
  ntype : NType
  str : String
  is_input : Bool
  is_output : Bool
  packed_ranges : Option (List RangeN)
  unpacked_ranges : Option (List RangeN)
  wiretype : Option SElem
  selfStruct : Option SElem
  force_convert : Option Int
  multirange_dimensions : List Int
  multirange_swapped : List Bool
  children : List CNode

/-- Whether a child list starts with an `AST_WIRETYPE` node. -/
def headIsWiretypeL : List CNode → Bool
  | .wiretypeC _ :: _ => true
  | _ => false

/-- `wire_node->children[0]->type == AST::AST_WIRETYPE` guard at the top
of `convert_packed_unpacked_range`. -/
def headIsWiretype (w : WNode) : Bool :=
  headIsWiretypeL w.children

/-- The `convert_node` condition of `convert_packed_unpacked_range`
(`UhdmAst.cc:314-317`). -/
def convert_node_cond (w : WNode) : Prop :=
  (w.packed_ranges.getD []).length > 1 ∨ (w.unpacked_ranges.getD []).length > 1 ∨
  w.wiretype.isSome ∨ w.ntype = .param ∨ w.ntype = .localparam ∨
  ((w.is_input ∨ w.is_output) ∧
    ((w.packed_ranges.getD []).length > 0 ∨ (w.unpacked_ranges.getD []).length > 0)) ∨
  w.force_convert = some 1

instance (w : WNode) : Decidable (convert_node_cond w) := by
  unfold convert_node_cond
  exact inferInstance

/-- `convert_packed_unpacked_range(wire_node)` (`UhdmAst.cc:296-343`).
Returns the mutated node; `none` models the `resolve_wiretype` path
(which invokes the external yosys simplifier and is outside this
embedding).  All other branches are embedded faithfully, including the
duplicated-append behaviour of the non-converting branch. -/
def convert_packed_unpacked_range (w : WNode) : Option WNode :=
  if headIsWiretype w then none
  else
    let packed := w.packed_ranges.getD []
    let unpacked := w.unpacked_ranges.getD []
    if packed.isEmpty ∧ unpacked.isEmpty then
      some { w with packed_ranges := none, unpacked_ranges := none }
    else
      if convert_node_cond w then
        if w.multirange_dimensions.isEmpty then
          let pd := add_multirange_attribute packed
          let ud := add_multirange_attribute unpacked
          let size := pd.2.2 * ud.2.2
          some { w with
            multirange_dimensions := w.multirange_dimensions ++ pd.1 ++ ud.1,
            multirange_swapped := w.multirange_swapped ++ pd.2.1 ++ ud.2.1,
            children := w.children ++ [.rangeC (make_range (size - 1) 0)] }
        else
          some w
      else
        let retype : Prop := w.ntype = .wire ∧ packed.length = 1 ∧ unpacked.length = 1 ∧
          ¬w.is_input ∧ ¬w.is_output
        some { w with
          ntype := if retype then .memory else w.ntype,
          children := w.children ++ (packed ++ unpacked).map .rangeC }

/-- A declaration with canonical packed dimensions `[w-1:0]` for each
width in `ws` (declared order), as it stands right after
`add_multirange_wire` stored the packed ranges reversed and the unpacked
range list empty (`UhdmAst.cc:112-130`). -/
def mkMultirangeDecl (ws : List Int) : WNode :=
  { ntype := .wire
    str := "\\v"
    is_input := false
    is_output := false
    packed_ranges := some ((ws.map canonRange).reverse)
    unpacked_ranges := some []
    wiretype := none
    selfStruct := none
    force_convert := none
    multirange_dimensions := []
    multirange_swapped := []
    children := [] }

/-- A plain wire with one packed range `[3:0]` and no unpacked range: a
declaration the decision rule leaves un-flattened. -/
def simpleWireDecl : WNode :=
  { ntype := .wire
    str := "\\s"
    is_input := false
    is_output := false
    packed_ranges := some [make_range 3 0]
    unpacked_ranges := some []
    wiretype := none
    selfStruct := none
    force_convert := none
    multirange_dimensions := []
    multirange_swapped := []
    children := [] }

/-- An `AST_RANGE` selector child of an `AST_DOT` search node
(`struct_range`): its expression children and the node's own
`range_left`/`range_right` fields (used by the
`struct_range->range_left != struct_range->range_right` test). -/
structure SRange where
  kids : List RExpr
  rl : Int
  rr : Int
deriving Repr, DecidableEq

/-- An `AST_DOT` search node: the accessed field name, the optional
nested `AST_DOT` child, and the optional `AST_RANGE` child.  The source
scans `search_node->children` and asserts there is at most one of each
(`log_assert(!sub_dot)` / `log_assert(!struct_range)`); the model carries
them directly. -/
inductive DotNode where
  | mk (str : String) (subdot : Option DotNode) (sel : Option SRange)

/-- The `str` field of a search node. -/
def DotNode.str : DotNode → String
  | .mk s _ _ => s

/-- `search_node->str.find("\\") == 0 ? str.substr(1) : str`. -/
def stripBackslash (s : String) : String :=
  match s.data with
  | '\\' :: rest => String.mk rest
  | _ => s

/-- The trailing-range application block of `expand_dot`
(`UhdmAst.cc:396-442`), split into a named helper: given the located
struct element, the current `left`/`right` bounds (after any sub-dot
replacement), the element size of the located element, and the optional
`struct_range`, produce the final bounds.  `none` models the
`log_error`/`log_assert` aborts on unhandled selector shapes. -/
def expand_dot_range (elem : SElem) (left right elem_size : RExpr) (sel : Option SRange) :
    Option RangeE :=
  match sel with
  | none => some ⟨left, right⟩
  | some sr =>
    match elem with
    | .item _ _ _ =>
        match sr.kids with
        | [a, b] =>
            let range_size : RExpr := .add (.sub a b) (.const 1)
            some ⟨.add left (.add b (.sub range_size elem_size)), .add right b⟩
        | [a] => some ⟨.add right a, .add right a⟩
        | _ => none
    | .strct _ _ _ _ =>
        match sr.kids with
        | [a, b] =>
            if a.isConst ∧ sr.rl ≠ sr.rr then
              let range_size : RExpr := .add (.sub a b) (.const 1)
              some ⟨.add left (.sub range_size elem_size), .add right b⟩
            else none
        | [a] =>
            let m : RExpr := .mul elem_size a
            some ⟨.add left m, .add right m⟩
        | _ => none

/-- `expand_dot(current_struct, search_node)` (`UhdmAst.cc:345-447`):
locates the named field among `current_struct`'s children, derives its
`(left, right)` bounds, recursively expands a nested dot, and applies a
trailing range selector.  `none` models the fatal `log_error` paths
(field not found, unsupported element, unhandled selector). -/
def expand_dot (children : List SElem) : DotNode → Option RangeE
  | .mk str subdot sel =>
    let search_str := stripBackslash str
    match children.find? (fun e => e.name == search_str) with
    | none => none
    | some elem =>
      let lr? : Option (RExpr × RExpr) :=
        match elem with
        | .item _ l r => some (.const l, .const r)
        | .strct _ _ _ cs =>
            match cs.head?, cs.getLast? with
            | some f, some b => some (.const f.range_left, .const b.range_right)
            | _, _ => none
      match lr? with
      | none => none
      | some (left0, right0) =>
        let elem_size : RExpr := .add (.sub left0 right0) (.const 1)
        match subdot with
        | some d =>
          match expand_dot elem.childrenOf d with
          | none => none
          | some sub => expand_dot_range elem sub.left sub.right elem_size sel
        | none => expand_dot_range elem left0 right0 elem_size sel

/-- `get_max_offset(node)` (`UhdmAst.cc:93-102`): descend into the first
child while `range_left < 0`, then return `range_left`.  `none` models
running out of children (undefined behaviour in the source). -/
def get_max_offset : SElem → Option Int
  | .item _ l _ => if 0 ≤ l then some l else none
  | .strct _ l _ [] => if 0 ≤ l then some l else none
  | .strct _ l _ (c :: _) => if 0 ≤ l then some l else get_max_offset c

/-- Total width of a scalar field list (field name, width pairs). -/
def sumWidths : List (String × Int) → Int
  | [] => 0
  | (_, w) :: t => w + sumWidths t

/-- Modelled from the spec: the packed layout of a struct with scalar
fields `fields` (declared order) that the external target-AST simplifier
assigns before `expand_dot` runs — the packing code itself lives in the
yosys frontend, not in this repository.  Per the data-model invariant,
the first-declared field occupies the most-significant bits, so field `i`
spans `[Σ(w_j for j>i) + w_i - 1 : Σ(w_j for j>i)]`. -/
def layoutItems : List (String × Int) → List SElem
  | [] => []
  | (nm, w) :: t => .item nm (sumWidths t + w - 1) (sumWidths t) :: layoutItems t

/-- A child of the identifier node holding the access that combines an
index with a dot: `convert_dot` inspects `node->children[0]`. -/
inductive INode where
  | rangeI (kids : List RExpr)
  | otherI
deriving Repr

/-- `convert_dot(wire_node, node, dot)` (`UhdmAst.cc:449-477`): selects
the struct type node, expands the dot path, and — when the access also
carries a leading index range — relocates both bounds by
`struct_size * (unpacked_range - index)`.  `none` models the
`log_assert` aborts. -/
def convert_dot (w : WNode) (nodeChildren : List INode) (dot : DotNode) : Option RangeE :=
  let struct_node? : Option SElem :=
    if w.ntype = .strct then w.selfStruct
    else if w.wiretype.isSome then w.wiretype else none
  match struct_node? with
  | none => none
  | some sn =>
    match expand_dot sn.childrenOf dot with
    | none => none
    | some ex =>
      match nodeChildren.head? with
      | some (.rangeI kids) =>
          match get_max_offset sn with
          | none => none
          | some mo =>
            let struct_size_int : Int := mo + 1
            if w.multirange_dimensions.isEmpty then none
            else
              let unpacked_range : Int := w.multirange_dimensions.getLastD 0 - 1
              match kids.head? with
              | none => none
              | some ix =>
                some ⟨.add ex.left (.mul (.const struct_size_int)
                        (.sub (.const unpacked_range) ix)),
                      .add ex.right (.mul (.const struct_size_int)
                        (.sub (.const unpacked_range) ix))⟩
      | _ => some ex

/-- `add_force_convert_attribute(wire_node, val)` (`UhdmAst.cc:263-266`). -/
def setForce (v : Int) (w : WNode) : WNode := { w with force_convert := some v }

/-- A node with its `force_convert` attribute dropped: two nodes with the
same `eraseForce` image differ at most in that attribute — the only field
`check_memories` ever mutates. -/
def eraseForce (w : WNode) : WNode := { w with force_convert := none }

/-- First-match association lookup, modelling `std::map::count`/lookup on
the `memories` map (name → registered node). -/
def alookup : List (String × Nat) → String → Option Nat
  | [], _ => none
  | (s, i) :: t, k => if s = k then some i else alookup t k

/-- State of the `check_memories` traversal: the `memories` map (name →
index of the registered wire in the pre-order node list) and the node
list itself (mutations are performed on its entries, as the C++ code
mutates the shared nodes through pointers). -/
def CMSt : Type := List (String × Nat) × List WNode

/-- First branch of the `check_memories` visitor: a `\$readmemh` call
node forces `force_convert = 0` on the wire registered under the name in
its second child.  `none` models the null-dereference when the name was
never registered (`memories[...]` inserts a null entry) and the missing
second child. -/
def cmReadmemh (node : WNode) (st : CMSt) : Option CMSt :=
  if node.str = "\\$readmemh" then
    match node.children.get? 1 with
    | none => none
    | some c =>
      match alookup st.1 c.strOf with
      | none => none
      | some i =>
        match st.2.get? i with
        | none => none
        | some wn => some (st.1, st.2.set i (setForce 0 wn))
  else some st

/-- Second branch: a wire with exactly one packed and one unpacked range
is registered in `memories`; re-registration of a name is a
`log_assert` failure (`none`). -/
def cmRegister (node : WNode) (k : Nat) (st : CMSt) : Option CMSt :=
  if node.ntype = .wire ∧ (node.packed_ranges.getD []).length = 1 ∧
      (node.unpacked_ranges.getD []).length = 1 then
    match alookup st.1 node.str with
    | some _ => none
    | none => some ((node.str, k) :: st.1, st.2)
  else some st

/-- Third branch: a whole-identifier (zero-selector) reference to a
registered memory forces `force_convert = 1`, unless the attribute is
already present. -/
def cmIdent (node : WNode) (st : CMSt) : Option CMSt :=
  if node.ntype = .ident then
    match alookup st.1 node.str with
    | none => some st
    | some i =>
      match st.2.get? i with
      | none => none
      | some wn =>
        if wn.force_convert.isSome = false ∧ node.children = [] then
          some (st.1, st.2.set i (setForce 1 wn))
        else some st
  else some st

/-- One visit of the `check_memories` lambda on the node at position `k`
of the pre-order descendant list: the three branches run in source
order, each reading the node value as visited (mutations never target a
not-yet-visited node in a successful run). -/
def check_memories_step (st : CMSt) (k : Nat) : Option CMSt :=
  match st.2.get? k with
  | none => none
  | some node => (cmReadmemh node st).bind (cmRegister node k) |>.bind (cmIdent node)

/-- Run the visitor over a list of positions. -/
def cmRun : CMSt → List Nat → Option CMSt
  | st, [] => some st
  | st, k :: ks => (check_memories_step st k).bind (fun st1 => cmRun st1 ks)

/-- `check_memories(module_node)` (`UhdmAst.cc:268-291`), applied to the
pre-order list of the module's descendant nodes (the visit order of
`visitEachDescendantStatic`). -/
def check_memories (arena : List WNode) : Option CMSt :=
  cmRun ([], arena) (List.range arena.length)

/-- An input-port wire named `\mem` with one packed and one unpacked
range. -/
def portMemWire : WNode :=
  { ntype := .wire
    str := "\\mem"
    is_input := true
    is_output := false
    packed_ranges := some [make_range 3 0]
    unpacked_ranges := some [make_range 1 0]
    wiretype := none
    selfStruct := none
    force_convert := none
    multirange_dimensions := []
    multirange_swapped := []
    children := [] }

/-- A `\$readmemh` call node loading `\mem`. -/
def readmemhNode : WNode :=
  { ntype := .other
    str := "\\$readmemh"
    is_input := false
    is_output := false
    packed_ranges := none
    unpacked_ranges := none
    wiretype := none
    selfStruct := none
    force_convert := none
    multirange_dimensions := []
    multirange_swapped := []
    children := [.identC "\\memfile", .identC "\\mem"] }

/-- The same `\mem` declaration as a plain (non-port) wire: `portMemWire`
with `is_input` cleared. -/
def memWireDecl : WNode := { portMemWire with is_input := false }

/-- The current node list agrees with the original everywhere up to the
`force_convert` attribute (the only field `check_memories` mutates). -/
def ArenaSim (ar cur : List WNode) : Prop :=
  ∀ j, (cur.get? j).map eraseForce = (ar.get? j).map eraseForce

/-- State invariant before the claim's wire (at position `a`) is visited:
the wire is still untouched and no `memories` entry mentions its name or
its position. -/
def MemInvPre (a : Nat) (w : WNode) (st : CMSt) : Prop :=
  st.2.get? a = some w ∧ alookup st.1 w.str = none ∧ ∀ p ∈ st.1, p.2 ≠ a

/-- State invariant after the wire is registered and before the
`\$readmemh` call is visited: the name resolves to position `a`, the
stored node differs from `w` at most in `force_convert`, and `a` is
reserved for the wire's name. -/
def MemInvMid (a : Nat) (w : WNode) (st : CMSt) : Prop :=
  alookup st.1 w.str = some a ∧
  (st.2.get? a = some w ∨ st.2.get? a = some (setForce 1 w) ∨
    st.2.get? a = some (setForce 0 w)) ∧
  (∀ p ∈ st.1, p.2 = a → p.1 = w.str)

/-- State invariant after the `\$readmemh` call: the wire carries
`force_convert = 0` and keeps it. -/
def MemInvPost (a : Nat) (w : WNode) (st : CMSt) : Prop :=
  st.2.get? a = some (setForce 0 w)

/-! ### Scope model: `setup_current_scope`, `simplify`, `clear_current_scope`
(`UhdmAst.cc:479-502`, `504-586`, `588-594`) and the per-unit pipeline of
`process_design` (`UhdmAst.cc:1017-1058`). Only the scope bookkeeping is
embedded: `AST_INTERNAL::current_scope` (name → node) and
`AST_INTERNAL::current_ast_mod`. -/

/-- Node kinds relevant to the scope bookkeeping. -/
inductive SKind where
  | packageK
  | typedefK
  | parameterK
  | localparamK
  | enumK
  | enumItemK
  | wireK
  | structK
  | identK
  | dotK
  | otherK
deriving Repr, DecidableEq

/-- A node of the lowered AST as seen by the scope machinery: its type, its
name (`->str`, with the yosys `\\` prefix) and its children. -/
inductive SNode where
  | mk (kind : SKind) (str : String) (children : List SNode)

def SNode.kind : SNode → SKind
  | .mk k _ _ => k

def SNode.str : SNode → String
  | .mk _ s _ => s

def SNode.children : SNode → List SNode
  | .mk _ _ cs => cs

/-- `AST_INTERNAL::current_scope` (name → node map, modelled as an
association list where the head binding shadows later ones). -/
def Scope : Type := List (String × SNode)

/-- `current_scope` together with `AST_INTERNAL::current_ast_mod`. -/
def ScopeSt : Type := Scope × Option SNode

/-- Map lookup on the scope (`current_scope.count` / `operator[]`). -/
def alookupS : Scope → String → Option SNode
  | [], _ => none
  | (s, v) :: t, k => if s = k then some v else alookupS t k

/-- The first `AST_DOT` child, if any (`UhdmAst.cc:508-513`; the `expanded`
guard is always null when the loop runs). -/
def dotChild (n : SNode) : Option SNode :=
  n.children.find? (fun c => c.kind == .dotK)

/-- The fallback of `simplify` when the node's name is not in scope
(`UhdmAst.cc:515-523`): `str += "." + dot->str.substr(1)` and all children
are deleted. -/
def dotFallback (n d : SNode) : SNode :=
  .mk n.kind (n.str ++ "." ++ (d.str.drop 1)) []

/-- Scope effect of the trailing `switch` of `simplify`
(`UhdmAst.cc:541-585`), with `pk` the parent node's type (`none` for the
top call with `parent_node = nullptr`):
`AST_TYPEDEF`/`AST_ENUM`/`AST_WIRE`/`AST_PARAMETER`/`AST_LOCALPARAM`
register the node under its name; the `AST_STRUCT` case writes through
`current_scope[str]` (a `std::map::operator[]`, which inserts the key)
when the name is non-empty and the parent is neither a typedef nor a
struct. `convert_packed_unpacked_range` (wire case) only rewrites the
node, never the scope. -/
def scopeUpdate (sc : Scope) (n : SNode) (pk : Option SKind) : Scope :=
  match n.kind with
  | .typedefK | .enumK | .wireK | .parameterK | .localparamK => (n.str, n) :: sc
  | .structK =>
      match pk with
      | some k =>
          if ¬n.str = "" ∧ ¬k = .typedefK ∧ ¬k = .structK then (n.str, n) :: sc else sc
      | none => sc
  | _ => sc

/-- A pending step of the `simplify` walk: visiting a node (dot handling,
then children, then the switch), or just its trailing switch. -/
inductive Task where
  | visit (n : SNode) (pk : Option SKind)
  | post (n : SNode) (pk : Option SKind)

/-- One step of the `simplify` traversal (`UhdmAst.cc:504-586`), returning
the new scope and the newly spawned sub-tasks. On a `visit`: if the node
has an `AST_DOT` child and its name is not in scope, the fallback renames
the node and deletes its children, so only the switch remains; if the name
is in scope, the children are replaced by the `convert_dot` expansion — an
expression tree (identifier/arithmetic/range nodes) that contains no
declarations and no dots, so its own walk never writes the scope and only
the switch on the (unrenamed) node remains; otherwise the children are
visited in order and then the switch runs. A `post` performs the switch. -/
def stepT (sc : Scope) (t : Task) : Scope × List Task :=
  match t with
  | .visit n pk =>
      match dotChild n with
      | some d =>
          if (alookupS sc n.str).isNone then (sc, [.post (dotFallback n d) pk])
          else (sc, [.post n pk])
      | none => (sc, n.children.map (fun c => Task.visit c (some n.kind)) ++ [.post n pk])
  | .post n pk => (scopeUpdate sc n pk, [])

/-- Run the traversal for `fuel` steps; `runTasks sc ts fuel` is the scope
after `fuel` steps, so the scopes reachable *during* a walk are exactly its
values over all fuel amounts. -/
def runTasks : Scope → List Task → Nat → Scope
  | sc, _, 0 => sc
  | sc, [], _ + 1 => sc
  | sc, t :: ts, fuel + 1 =>
      let p := stepT sc t
      runTasks p.1 (p.2 ++ ts) fuel

/-- Entries contributed to the scope by one child `o` of a package
(`UhdmAst.cc:481-495`): typedefs, parameters and localparams are imported
under `pkg::name` (leading `\\` of the member dropped) and under their bare
name; enums are imported under their name together with each enum item. -/
def setupChild (pkgStr : String) (sc : Scope) (o : SNode) : Scope :=
  match o.kind with
  | .typedefK | .parameterK | .localparamK =>
      (o.str, o) :: (pkgStr ++ "::" ++ (o.str.drop 1), o) :: sc
  | .enumK => o.children.foldl (fun sc2 c => (c.str, c) :: sc2) ((o.str, o) :: sc)
  | _ => sc

/-- `setup_current_scope(top_nodes, current_top_node)`
(`UhdmAst.cc:479-502`): imports the exported members of *every* package
among the top nodes into the current scope, then sets `current_ast_mod` to
the unit about to be lowered. -/
def setup_current_scope (tops : List SNode) (u : SNode) (st : ScopeSt) : ScopeSt :=
  (tops.foldl
    (fun sc t => if t.kind == .packageK then t.children.foldl (setupChild t.str) sc else sc)
    st.1,
   some u)

/-- `clear_current_scope()` (`UhdmAst.cc:588-594`): drops every scope entry
and unsets `current_ast_mod`. -/
def clear_current_scope : ScopeSt → ScopeSt := fun _ => ([], none)

/-- The scope pipeline `process_design` runs for one top-level unit
(`UhdmAst.cc:1026-1033` for packages, `1045-1050` for modules):
`setup_current_scope`, the `simplify` walk (run for `fuel` steps;
`check_memories` is also called there but never touches the scope), then
`clear_current_scope`. -/
def process_unit_scope (tops : List SNode) (u : SNode) (st : ScopeSt) (fuel : Nat) : ScopeSt :=
  clear_current_scope
    (runTasks (setup_current_scope tops u st).1 [.visit u none] fuel,
     (setup_current_scope tops u st).2)

/-- Node kinds whose `simplify` switch writes the scope: the declarations
(`AST_TYPEDEF`/`AST_ENUM`/`AST_WIRE`/`AST_PARAMETER`/`AST_LOCALPARAM`,
`UhdmAst.cc:546-556`) and `AST_STRUCT`, whose case inserts its key through
`current_scope[str]` (`UhdmAst.cc:578-582`). A plain identifier reference
only *reads* the scope (`UhdmAst.cc:557-577`) and never writes it. -/
def bindingKind (k : SKind) : Bool :=
  k == .typedefK || k == .enumK || k == .wireK || k == .parameterK ||
    k == .localparamK || k == .structK

/-- The walk of `simplify` over this subtree can *bind* the name `nm`:
some scope-writing node carries it, or the dot fallback would rename a
scope-writing node to it. A plain identifier reference to `nm` does not
declare it. -/
inductive DeclaresName (nm : String) : SNode → Prop where
  | own : ∀ n : SNode, bindingKind n.kind = true → n.str = nm → DeclaresName nm n
  | renamed : ∀ (n d : SNode), bindingKind n.kind = true → dotChild n = some d →
      n.str ++ "." ++ (d.str.drop 1) = nm → DeclaresName nm n
  | child : ∀ (n c : SNode), c ∈ n.children → DeclaresName nm c → DeclaresName nm n

/-- The task cannot bind `nm`: a visit of a subtree that never declares
it, or a switch on a node that is not a scope-writing node named `nm`. -/
def taskAvoids (nm : String) : Task → Prop
  | .visit n _ => ¬DeclaresName nm n
  | .post n _ => ¬(bindingKind n.kind = true ∧ n.str = nm)

/-- Concrete package `\A` exporting parameter `\p`. -/
def c8pkgA : SNode := .mk .packageK "\\A" [.mk .parameterK "\\p" []]

/-- Concrete module `\B` that *references* `\p` and `\w` through plain
identifiers but declares neither. -/
def c8modB : SNode :=
  .mk .otherK "\\B" [.mk .identK "\\p" [], .mk .identK "\\w" []]

/-- Concrete module `\A` declaring wire `\w`. -/
def c8modA : SNode := .mk .otherK "\\A" [.mk .wireK "\\w" []]

/-! ### Module specialization model: the instance branch of
`process_module` (`UhdmAst.cc:1109-1291`, `BUILD_UPSTREAM`). The module
registry `shared.top_nodes` is a name → pointer map where `operator[]`
inserts a null entry for an absent key; entries are embedded by value
(`Option Module`, `none` for null). C++ mutates the selected module
through its pointer and stores it under its (new) name; the embedding
applies the same mutations to the value and stores the result under the
same name, which yields the same final registry because the code never
reads another alias of the mutated module within the run, and
`module_node->clone()` (taken exactly when `module_parameters` is
non-empty) is a value copy. -/

/-- A constant value node (`AST_CONSTANT`): its string form `->str`, its
`bits.size()` and its `->integer`. `simplify_parameter` plus the in-code
`log_assert` guarantee the parameter values reaching the decision points
are constants. -/
structure CVal where
  s : String
  bitsLen : Nat
  integer : Int
deriving Repr, DecidableEq

/-- A `vpiParamAssign` node: the parameter name and its constant value
(`node->children[0]`). -/
structure PAssign where
  str : String
  value : CVal
deriving Repr, DecidableEq

/-- Kind of a module child relevant to the second parameter loop. -/
inductive MCKind where
  | paramK
  | localparamK
  | otherK
deriving Repr, DecidableEq

/-- A module child as inspected by the second parameter loop: its kind,
name and value. -/
structure MChild where
  mck : MCKind
  str : String
  value : CVal
deriving Repr, DecidableEq

/-- A module entity: name, `ID::partial` attribute, `ID::whitebox` and
`ID::keep` attributes, and its parameter-carrying children. -/
structure Module where
  str : String
  partialAttr : Option Int
  whitebox : Bool
  keep : Bool
  children : List MChild
deriving Repr, DecidableEq

/-- Serialization of one parameter assignment into `module_parameters`
(`UhdmAst.cc:1174-1179`): `name=str` when the constant has a string form,
else `name=<bits>'d<integer>`. -/
def serializeOne (p : PAssign) : String :=
  if ¬p.value.s = "" then p.str ++ "=" ++ p.value.s
  else p.str ++ "=" ++ toString p.value.bitsLen ++ "'d" ++ toString p.value.integer

/-- `shared.top_nodes`: association list, head binding wins. -/
abbrev TopNodes : Type := List (String × Option Module)

def alookupT : TopNodes → String → Option (Option Module)
  | [], _ => none
  | (k0, v0) :: t, k => if k0 = k then some v0 else alookupT t k

/-- `top_nodes[k] = v`: replace the first `k`-binding, else append. -/
def tnSet : TopNodes → String → Option Module → TopNodes
  | [], k, v => [(k, v)]
  | (k0, v0) :: t, k, v => if k0 = k then (k, v) :: t else (k0, v0) :: tnSet t k v

/-- A read through `std::map::operator[]`: returns the stored value (null
for an absent key) and the map, extended with a null entry when the key
was absent. -/
def tnGet (tn : TopNodes) (k : String) : Option Module × TopNodes :=
  match alookupT tn k with
  | some v => (v, tn)
  | none => (none, tn ++ [(k, none)])

/-- The derived specialized-module name (`UhdmAst.cc:1184-1190`):
`$paramod$<sha1(params)><type>` when the serialized parameters exceed 60
characters, `$paramod<type><params>` when non-empty, else the generic
name. -/
def deriveName (sha1 : String → String) (type mp : String) : String :=
  if 60 < mp.length then "$paramod$" ++ sha1 mp ++ type
  else if ¬mp = "" then "$paramod" ++ type ++ mp
  else type

/-- The `find_if` condition of the second parameter loop
(`UhdmAst.cc:1222-1226`): a parameter or localparam child with the
assignment's name. -/
def matchCond (c : MChild) (p : PAssign) : Bool :=
  (c.mck == .paramK || c.mck == .localparamK) && c.str == p.str

/-- Replacing the value of a matching child (the effect
`add_or_replace_child` has on the stored parameter). -/
def upd (p : PAssign) (c : MChild) : MChild :=
  if matchCond c p then { c with value := p.value } else c

def aorc (m : Module) (p : PAssign) : Module :=
  { m with children := m.children.map (upd p) }

/-- The value comparison guarding the `AST_PARASET` push
(`UhdmAst.cc:1239-1240`): same `integer` and same `str`. -/
def sameVal (a b : CVal) : Bool := a.integer == b.integer && a.s == b.s

/-- One iteration of the second `vpiParamAssign` loop
(`UhdmAst.cc:1211-1258`) acting on the selected module and the list of
`AST_PARASET` children pushed onto the cell. With constant values (see
`CVal`) the blackbox test reduces to `cell_instance`: a matching proper
parameter of a blackbox gets a `PARASET` when the value differs; a
matching parameter of a non-blackbox, or a matching localparam, is
replaced in the module; an unmatched assignment becomes a `PARASET` iff
the module is a `partial = 2` placeholder. -/
def paramStep (ci : Bool) (acc : Module × List PAssign) (p : PAssign) : Module × List PAssign :=
  match acc.1.children.find? (fun c => matchCond c p) with
  | some c =>
      if c.mck == .paramK then
        if ci then
          if sameVal p.value c.value then acc else (acc.1, acc.2 ++ [p])
        else (aorc acc.1 p, acc.2)
      else (aorc acc.1 p, acc.2)
  | none => if acc.1.partialAttr = some 2 then (acc.1, acc.2 ++ [p]) else acc

/-- The children-level effect of one `paramStep` (proved equal to it in
`paramStep_module`): skip when a proper parameter is found on a blackbox,
replace the matching child's value otherwise, do nothing when no child
matches. -/
def chStep (ci : Bool) (chs : List MChild) (p : PAssign) : List MChild :=
  match chs.find? (fun c => matchCond c p) with
  | some c => if c.mck == .paramK && ci then chs else chs.map (upd p)
  | none => chs

/-- The specialized module produced by the tail of the instance branch
(`UhdmAst.cc:1206-1269`): rename to the derived name, set `whitebox` for a
blackbox cell, run the second parameter loop, set `keep`, and erase a
`partial = 1` attribute. -/
def specModule (mnode : Module) (mn : String) (ps : List PAssign) (ci : Bool) : Module :=
  let m1 : Module := { mnode with str := mn }
  let m2 : Module := if ci then { m1 with whitebox := true } else m1
  let m4 : Module := { (ps.foldl (paramStep ci) (m2, ([] : List PAssign))).1 with keep := true }
  if m4.partialAttr = some 1 then { m4 with partialAttr := none } else m4

/-- The `AST_PARASET` children the same tail pushes onto the cell. -/
def parasetsOf (mnode : Module) (mn : String) (ps : List PAssign) (ci : Bool) : List PAssign :=
  let m1 : Module := { mnode with str := mn }
  let m2 : Module := if ci then { m1 with whitebox := true } else m1
  (ps.foldl (paramStep ci) (m2, ([] : List PAssign))).2

/-- Registration plus finishing pipeline: the selected module is stored
under the derived name (`module_node->str = module_name;
top_nodes[module_node->str] = module_node`, `UhdmAst.cc:1206-1207`), then
mutated in place — so the registry entry finally holds the finished
module. -/
def finishInstance (tn : TopNodes) (mnode : Module) (mn : String) (ps : List PAssign) (ci : Bool) :
    TopNodes × List PAssign :=
  (tnSet (tnSet tn mn (some { mnode with str := mn })) mn (some (specModule mnode mn ps ci)),
   parasetsOf mnode mn ps ci)

/-- One module instantiation: the generic name (`vpiDefName`, sanitized),
its parameter assignments, and the `vpiCellInstance` flag. -/
structure InstIn where
  type : String
  ps : List PAssign
  cellInstance : Bool

/-- The instance branch of `process_module` (`UhdmAst.cc:1160-1291`),
restricted to its effect on `shared.top_nodes` and the cell's `PARASET`
children. `module_parameters` is serialized only when the generic name is
a known key; the registry is consulted under the derived name *before*
any clone; on a miss the generic is consulted (cloned when the serialized
parameters are non-empty — a value copy here) and, if also absent, a
`partial = 2` placeholder named after the generic is created with
`cell_instance` forced. -/
def process_module_instance (sha1 : String → String) (tn : TopNodes) (inst : InstIn) :
    TopNodes × List PAssign :=
  let mp := if (alookupT tn inst.type).isSome
            then String.join (inst.ps.map serializeOne) else ""
  let mn := deriveName sha1 inst.type mp
  let p0 := tnGet tn mn
  match p0.1 with
  | some mnode => finishInstance p0.2 mnode mn inst.ps inst.cellInstance
  | none =>
      let p1 := tnGet p0.2 inst.type
      match p1.1 with
      | some gen => finishInstance p1.2 gen mn inst.ps inst.cellInstance
      | none => finishInstance p1.2 ⟨inst.type, some 2, false, false, []⟩ inst.type inst.ps true

/-- Concrete generic module `\ff` with one parameter `\WIDTH = 8`. -/
def c4gen : Module := ⟨"\\ff", none, false, false, [⟨.paramK, "\\WIDTH", ⟨"8", 4, 8⟩⟩]⟩

/-- A concrete 40-character hash distinguishing the two parameter
serializations used in the witness. -/
def c4hash : String → String :=
  fun s => if s = "\\WIDTH=16" then ⟨List.replicate 40 'a'⟩ else ⟨List.replicate 40 'b'⟩

/-! ### Supporting lemmas for the range flattening engine -/

theorem sesAux_interleave : ∀ (ws : List Int) (e : Int),
    sesAux (interleave01 ws) e = partialProds ws e := by
  intro ws
  induction ws with
  | nil => intro e; rfl
  | cons w t ih =>
      intro e
      simp only [interleave01, sesAux, partialProds, sub_zero]
      rw [ih]

theorem partialProds_length : ∀ (ws : List Int) (e : Int),
    (partialProds ws e).length = ws.length := by
  intro ws
  induction ws with
  | nil => intro e; rfl
  | cons w t ih => intro e; simp [partialProds, ih]

theorem revProds_getD : ∀ (ws : List Int) (e : Int) (m : Nat), m ≤ ws.length →
    ((e :: partialProds ws e).reverse).getD m 0 = (ws.take (ws.length - m)).prod * e := by
  intro ws
  induction ws with
  | nil =>
      intro e m hm
      have hm0 : m = 0 := Nat.le_zero.mp hm
      subst hm0
      simp [partialProds]
  | cons w t ih =>
      intro e m hm
      have hsplit : (e :: partialProds (w :: t) e).reverse
          = ((e * w :: partialProds t (e * w)).reverse) ++ [e] := by
        simp [partialProds]
      rw [hsplit]
      rcases Nat.lt_or_ge m (t.length + 1) with hlt | hge
      · rw [List.getD_append]
        · rw [ih (e * w) m (by omega)]
          have ht : (w :: t).length - m = (t.length - m) + 1 := by
            simp only [List.length_cons]; omega
          rw [ht, List.take_succ_cons, List.prod_cons]
          ring
        · simp only [List.length_reverse, List.length_cons, partialProds_length]
          omega
      · have hm' : m = t.length + 1 := by
          simp only [List.length_cons] at hm; omega
        subst hm'
        rw [List.getD_append_right]
        · simp [partialProds_length]
        · simp [partialProds_length]

theorem singleElemSizes_getD (ws : List Int) (m : Nat) (hm : m ≤ ws.length) :
    (singleElemSizes (interleave01 ws)).getD m 0 = (ws.take (ws.length - m)).prod := by
  unfold singleElemSizes
  rw [sesAux_interleave]
  have h := revProds_getD ws 1 m hm
  simpa using h

theorem ses_rev_getD (ws : List Int) (m : Nat) (hm : m ≤ ws.length) :
    (singleElemSizes (interleave01 ws.reverse)).getD m 0 = (ws.drop m).prod := by
  have h := singleElemSizes_getD ws.reverse m (by simp only [List.length_reverse]; exact hm)
  rw [h]
  rw [List.length_reverse, List.take_reverse, List.prod_reverse]
  have harith : ws.length - (ws.length - m) = m := by omega
  rw [harith]

theorem getD_replicate_false : ∀ (n i : Nat), (List.replicate n false).getD i false = false := by
  intro n
  induction n with
  | zero => intro i; rfl
  | succ n ih =>
      intro i
      cases i with
      | zero => rfl
      | succ i => simpa [List.replicate] using ih i

/-- Core row-major law for `convert_range` over a declaration with
canonical dimensions of widths `ws` and fully concrete single-index
selectors `idxs`: from selector `i` onwards, both produced bounds
evaluate to the row-major offset of the remaining indices. -/
theorem convert_range_rowMajor_aux (ws idxs : List Int) (hlen : idxs.length = ws.length) :
    ∀ (d i : Nat), i < ws.length → ws.length - 1 - i = d →
    ((convert_range (interleave01 ws.reverse) (List.replicate ws.length false)
        (idxs.map fun v => ⟨.const v, none⟩) i).left.eval
        = rowMajor (ws.drop i) (idxs.drop i)) ∧
    ((convert_range (interleave01 ws.reverse) (List.replicate ws.length false)
        (idxs.map fun v => ⟨.const v, none⟩) i).right.eval
        = rowMajor (ws.drop i) (idxs.drop i)) := by
  intro d
  induction d with
  | zero =>
      intro i hi hd
      have hii : i < idxs.length := by omega
      have hnp : ¬(i + 1 < (idxs.map fun v => (⟨.const v, none⟩ : Sel)).length) := by
        simp only [List.length_map, hlen]; omega
      have hne : ¬((idxs.map fun v => (⟨.const v, none⟩ : Sel)).length = 0 ∧ i = 0) := by
        simp only [List.length_map, hlen]; omega
      have hsel : (idxs.map fun v => (⟨.const v, none⟩ : Sel)).getD i defaultSel
          = ⟨.const idxs[i], none⟩ := by
        rw [List.getD_eq_getElem _ _ (by simpa only [List.length_map, hlen] using hi)]
        simp
      have hses : (singleElemSizes (interleave01 ws.reverse)).getD (i + 1) 0
          = (ws.drop (i + 1)).prod := ses_rev_getD ws (i + 1) (by omega)
      have hdrop1 : ws.drop (i + 1) = [] := by
        rw [show i + 1 = ws.length by omega]; exact List.drop_length ws
      have hdropw : ws.drop i = ws[i] :: ws.drop (i + 1) := List.drop_eq_getElem_cons hi
      have hdropi : idxs.drop i = idxs[i] :: idxs.drop (i + 1) :=
        List.drop_eq_getElem_cons hii
      have hdropi1 : idxs.drop (i + 1) = [] := by
        rw [show i + 1 = idxs.length by omega]; exact List.drop_length idxs
      rw [convert_range, if_neg hnp, if_neg hne]
      simp only [hsel, hses, hdrop1, hdropw, hdropi, hdropi1, getD_replicate_false,
        Bool.and_false, Bool.false_eq_true, if_false, Option.getD_none, rowMajor,
        RExpr.eval, List.prod_nil]
      constructor
      · ring
      · ring
  | succ d ih =>
      intro i hi hd
      have hii : i < idxs.length := by omega
      have hin : i + 1 < ws.length := by omega
      obtain ⟨ihl, ihr⟩ := ih (i + 1) hin (by omega)
      have hp : i + 1 < (idxs.map fun v => (⟨.const v, none⟩ : Sel)).length := by
        simp only [List.length_map, hlen]; omega
      have hne : ¬((idxs.map fun v => (⟨.const v, none⟩ : Sel)).length = 0 ∧ i = 0) := by
        simp only [List.length_map, hlen]; omega
      have hsel : (idxs.map fun v => (⟨.const v, none⟩ : Sel)).getD i defaultSel
          = ⟨.const idxs[i], none⟩ := by
        rw [List.getD_eq_getElem _ _ (by simpa only [List.length_map, hlen] using hi)]
        simp
      have hses : (singleElemSizes (interleave01 ws.reverse)).getD (i + 1) 0
          = (ws.drop (i + 1)).prod := ses_rev_getD ws (i + 1) (by omega)
      have hdropw : ws.drop i = ws[i] :: ws.drop (i + 1) := List.drop_eq_getElem_cons hi
      have hdropi : idxs.drop i = idxs[i] :: idxs.drop (i + 1) :=
        List.drop_eq_getElem_cons hii
      rw [convert_range, if_pos hp, if_neg hne]
      simp only [hsel, hses, hdropw, hdropi, getD_replicate_false,
        Bool.and_false, Bool.false_eq_true, if_false, Option.getD_none, rowMajor,
        RExpr.eval, ihl, ihr]
      constructor
      · ring
      · ring

theorem ama_canonical : ∀ (vs : List Int), (∀ x ∈ vs, 1 ≤ x) →
    add_multirange_attribute (vs.map canonRange)
      = (interleave01 vs, List.replicate vs.length false, vs.prod) := by
  intro vs
  induction vs with
  | nil => intro _; rfl
  | cons w t ih =>
      intro hv
      have hw : 1 ≤ w := hv w (List.mem_cons_self w t)
      have ht := ih (fun x hx => hv x (List.mem_cons_of_mem w hx))
      simp only [List.map_cons, add_multirange_attribute, ht, amaEntries, canonRange,
        RangeN.rightVal, Option.getD_some, interleave01, List.length_cons,
        List.replicate_succ, List.prod_cons]
      have hmin : min (w - 1) 0 = 0 := min_eq_right (by omega)
      have hmax : max (w - 1) 0 = w - 1 := max_eq_left (by omega)
      rw [hmin, hmax]
      have hwid : w - 1 - 0 + 1 = w := by ring
      rw [hwid]
      rfl

/-- Flattening a canonical multi-dimensional declaration: the engine
records the dimension table in reversed declared order (outermost last),
all-unswapped flags, and a single synthetic flat range `[Π ws - 1 : 0]`. -/
theorem cpur_mkMultirangeDecl (ws : List Int) (hn : 1 ≤ ws.length) (hw : ∀ x ∈ ws, 1 ≤ x)
    (hflat : 1 < ws.length ∨ (mkMultirangeDecl ws).force_convert = some 1) :
    convert_packed_unpacked_range (mkMultirangeDecl ws)
      = some { mkMultirangeDecl ws with
          multirange_dimensions := interleave01 ws.reverse,
          multirange_swapped := List.replicate ws.length false,
          children := [.rangeC (make_range (ws.prod - 1) 0)] } := by
  have hrev : (ws.map canonRange).reverse = ws.reverse.map canonRange :=
    (List.map_reverse canonRange ws).symm
  have hama : add_multirange_attribute ((ws.map canonRange).reverse)
      = (interleave01 ws.reverse, List.replicate ws.length false, ws.prod) := by
    rw [hrev, ama_canonical ws.reverse (fun x hx => hw x (List.mem_reverse.mp hx))]
    rw [List.length_reverse, List.prod_reverse]
  have hwt : ¬(headIsWiretype (mkMultirangeDecl ws) = true) := fun h => Bool.noConfusion h
  have hne : ¬(((mkMultirangeDecl ws).packed_ranges.getD []).isEmpty = true ∧
      ((mkMultirangeDecl ws).unpacked_ranges.getD []).isEmpty = true) := by
    intro hcon
    have h1 := hcon.1
    simp only [mkMultirangeDecl, Option.getD_some, List.isEmpty_iff,
      List.reverse_eq_nil_iff, List.map_eq_nil_iff] at h1
    subst h1
    simp at hn
  have hcc : convert_node_cond (mkMultirangeDecl ws) := by
    rcases hflat with h | h
    · refine Or.inl ?_
      simp only [mkMultirangeDecl, Option.getD_some, List.length_reverse, List.length_map]
      omega
    · exact Or.inr (Or.inr (Or.inr (Or.inr (Or.inr (Or.inr h)))))
  rw [convert_packed_unpacked_range, if_neg hwt]
  simp only []
  rw [if_neg hne, if_pos hcc]
  rw [if_pos (show (mkMultirangeDecl ws).multirange_dimensions.isEmpty = true by rfl)]
  simp only [mkMultirangeDecl, Option.getD_some, hama, add_multirange_attribute]
  simp [mul_one]

/-! ### C1 / C2 -/

/-- **C1.** For every declaration flattened by the range engine with
canonical dimension widths `w1..wn` and every access carrying one
concrete in-bounds index per dimension, `convert_range` produces a
single-bit range whose offset (the value of both bounds) is the
row-major sum `Σ index_i * Π (w_j for j > i)`. -/
theorem c1_rewrite_access_row_major
    (ws idxs : List Int) (w' : WNode)
    (hn : 2 ≤ ws.length)
    (hw : ∀ x ∈ ws, 1 ≤ x)
    (hlen : idxs.length = ws.length)
    (hidx : ∀ (k : Nat) (hk : k < idxs.length),
        0 ≤ idxs.get ⟨k, hk⟩ ∧ idxs.get ⟨k, hk⟩ < ws.get ⟨k, hlen ▸ hk⟩)
    (hconv : convert_packed_unpacked_range (mkMultirangeDecl ws) = some w') :
    (convert_range w'.multirange_dimensions w'.multirange_swapped
        (idxs.map fun v => ⟨.const v, none⟩) 0).left.eval = rowMajor ws idxs ∧
    (convert_range w'.multirange_dimensions w'.multirange_swapped
        (idxs.map fun v => ⟨.const v, none⟩) 0).right.eval = rowMajor ws idxs := by
  rw [cpur_mkMultirangeDecl ws (by omega) hw (Or.inl (by omega))] at hconv
  have hw' : w'.multirange_dimensions = interleave01 ws.reverse ∧
      w'.multirange_swapped = List.replicate ws.length false := by
    cases hconv
    exact ⟨rfl, rfl⟩
  rw [hw'.1, hw'.2]
  have h := convert_range_rowMajor_aux ws idxs hlen (ws.length - 1) 0 (by omega) (by omega)
  simpa using h

/-- Witness for C1 at `ws = [4, 2]`, `idxs = [2, 1]` (the specification's
own concrete scenario, offset `2*2 + 1 = 5`). -/
theorem c1_rewrite_access_row_major_witness :
    (convert_range (interleave01 [2, 4]) [false, false]
        ([(2 : Int), 1].map fun v => ⟨.const v, none⟩) 0).right.eval = 5 := by
  have hconv : convert_packed_unpacked_range (mkMultirangeDecl [4, 2])
      = some { mkMultirangeDecl [4, 2] with
          multirange_dimensions := interleave01 [2, 4],
          multirange_swapped := [false, false],
          children := [.rangeC (make_range 7 0)] } := by
    rw [cpur_mkMultirangeDecl [4, 2] (by decide) (by decide) (Or.inl (by decide))]
    rfl
  have h := c1_rewrite_access_row_major [4, 2] [2, 1] _ (by decide) (by decide) rfl
      (by decide) hconv
  have h5 : rowMajor [4, 2] [2, 1] = 5 := by decide
  rw [h5] at h
  exact h.2

/-- **C2 counterexample.** For the declaration with packed dimensions
`[3:0][1:0]`, the recorded dimension-size table is *not*
`[(0,4),(0,2)]` (i.e. not the flat list `[0,4,0,2]`) as the claim
states. -/
theorem c2_counterexample_dims_table :
    (convert_packed_unpacked_range (mkMultirangeDecl [4, 2])).map
      (fun w => w.multirange_dimensions) ≠ some [0, 4, 0, 2] := by
  decide

/-- **C2 (amended).** A 2-bit-wide item with packed dimensions
`[3:0][1:0]` flattens to the dimension table `[(0,2),(0,4)]` — reversed
declaration order, outermost dimension *last* — and the access `x[2][1]`
rewrites to the single-bit range `[5:5]`. -/
theorem c2_dims_table_and_access :
    ∃ w', convert_packed_unpacked_range (mkMultirangeDecl [4, 2]) = some w' ∧
      w'.multirange_dimensions = [0, 2, 0, 4] ∧
      w'.multirange_swapped = [false, false] ∧
      (convert_range w'.multirange_dimensions w'.multirange_swapped
          [⟨.const 2, none⟩, ⟨.const 1, none⟩] 0).left.eval = 5 ∧
      (convert_range w'.multirange_dimensions w'.multirange_swapped
          [⟨.const 2, none⟩, ⟨.const 1, none⟩] 0).right.eval = 5 := by
  have h := convert_range_rowMajor_aux [4, 2] [2, 1] rfl 1 0 (by decide) (by decide)
  exact ⟨_, rfl, rfl, rfl, h.1.trans (by decide), h.2.trans (by decide)⟩

/-! ### C5 / C6 -/

theorem ama_dims_length : ∀ (rs : List RangeN),
    (add_multirange_attribute rs).1.length = 2 * rs.length := by
  intro rs
  induction rs with
  | nil => rfl
  | cons r t ih =>
      simp only [add_multirange_attribute, amaEntries, List.length_append, List.length_cons]
      simp [ih]
      ring

theorem headIsWiretypeL_append (cs ds : List CNode)
    (hc : headIsWiretypeL cs = false) (hd : headIsWiretypeL ds = false) :
    headIsWiretypeL (cs ++ ds) = false := by
  cases cs with
  | nil => simpa using hd
  | cons c t =>
      cases c with
      | wiretypeC s => simp [headIsWiretypeL] at hc
      | rangeC r => simp [headIsWiretypeL]
      | identC s => simp [headIsWiretypeL]

/-- **C5 counterexample.** `convert_packed_unpacked_range` is *not*
idempotent on every declaration: on a plain wire with a single packed
range (no flattening performed), a second call appends a duplicate copy
of the range to the declaration's children. -/
theorem c5_counterexample_duplicate_ranges :
    ((convert_packed_unpacked_range simpleWireDecl).bind
        convert_packed_unpacked_range).map (fun w => w.children)
      ≠ (convert_packed_unpacked_range simpleWireDecl).map (fun w => w.children) := by
  decide

/-- **C5 (amended).** `convert_packed_unpacked_range` is idempotent on
every declaration it actually flattens (the `convert_node` path, guarded
by the emptiness check on the dimension table) and on declarations with
no ranges; the second call leaves the dimension table, the swap table and
the children — the whole node — unchanged.  (On a non-converted
declaration that has ranges, a second call instead appends duplicate
copies of the range children.) -/
theorem cpur_noop (w : WNode)
    (hh : headIsWiretype w = false)
    (hbe : ¬((w.packed_ranges.getD []).isEmpty = true ∧
      (w.unpacked_ranges.getD []).isEmpty = true))
    (hcc : convert_node_cond w)
    (hdim : ¬(w.multirange_dimensions.isEmpty = true)) :
    convert_packed_unpacked_range w = some w := by
  rw [convert_packed_unpacked_range, if_neg (by simp [hh])]
  simp only []
  rw [if_neg hbe, if_pos hcc, if_neg hdim]

theorem cpur_empty (w : WNode)
    (hh : headIsWiretype w = false)
    (hp : w.packed_ranges = none) (hu : w.unpacked_ranges = none) :
    convert_packed_unpacked_range w = some w := by
  rw [convert_packed_unpacked_range, if_neg (by simp [hh])]
  simp only []
  rw [if_pos (by rw [hp, hu]; exact ⟨rfl, rfl⟩)]
  obtain ⟨nt, s, ii, io, pr, ur, wt, ss, fc, md, msw, ch⟩ := w
  simp only [] at hp hu
  subst hp
  subst hu
  rfl

theorem c5_flatten_idempotent_on_converted (w w1 : WNode)
    (hhead : headIsWiretype w = false)
    (hcase : convert_node_cond w ∨
      ((w.packed_ranges.getD []) = [] ∧ (w.unpacked_ranges.getD []) = []))
    (h1 : convert_packed_unpacked_range w = some w1) :
    convert_packed_unpacked_range w1 = some w1 := by
  rw [convert_packed_unpacked_range, if_neg (by simp [hhead])] at h1
  simp only [] at h1
  by_cases hbe : ((w.packed_ranges.getD []).isEmpty = true ∧
      (w.unpacked_ranges.getD []).isEmpty = true)
  · rw [if_pos hbe] at h1
    obtain rfl := Option.some.inj h1
    exact cpur_empty _ hhead rfl rfl
  · rw [if_neg hbe] at h1
    have hcc : convert_node_cond w := by
      rcases hcase with h | h
      · exact h
      · exact absurd (by simp [h.1, h.2]) hbe
    rw [if_pos hcc] at h1
    by_cases hdim : w.multirange_dimensions.isEmpty = true
    · rw [if_pos hdim] at h1
      obtain rfl := Option.some.inj h1
      refine cpur_noop _ ?_ hbe hcc ?_
      · exact headIsWiretypeL_append w.children _ hhead rfl
      · intro hcon
        have hcon' : (w.multirange_dimensions ++
            (add_multirange_attribute (w.packed_ranges.getD [])).1 ++
            (add_multirange_attribute (w.unpacked_ranges.getD [])).1) = [] := by
          simpa [List.isEmpty_iff] using hcon
        rw [List.append_eq_nil, List.append_eq_nil] at hcon'
        have h2 := congrArg List.length hcon'.1.2
        have h3 := congrArg List.length hcon'.2
        rw [ama_dims_length] at h2 h3
        simp only [List.length_nil] at h2 h3
        rcases not_and_or.mp hbe with hne | hne
        · rw [List.isEmpty_iff] at hne
          exact hne (List.length_eq_zero.mp (by omega))
        · rw [List.isEmpty_iff] at hne
          exact hne (List.length_eq_zero.mp (by omega))
    · rw [if_neg hdim] at h1
      obtain rfl := Option.some.inj h1
      exact cpur_noop w hhead hbe hcc hdim

/-- Witness for C5 (amended) at the flattened two-dimensional declaration
`mkMultirangeDecl [4, 2]`. -/
theorem c5_flatten_idempotent_witness :
    convert_packed_unpacked_range
      { mkMultirangeDecl [4, 2] with
        multirange_dimensions := [0, 2, 0, 4],
        multirange_swapped := [false, false],
        children := [.rangeC (make_range 7 0)] }
      = some { mkMultirangeDecl [4, 2] with
        multirange_dimensions := [0, 2, 0, 4],
        multirange_swapped := [false, false],
        children := [.rangeC (make_range 7 0)] } := by
  refine c5_flatten_idempotent_on_converted (mkMultirangeDecl [4, 2]) _ rfl ?_ ?_
  · exact Or.inl (by decide)
  · rfl

/-- Behaviour of `convert_packed_unpacked_range` on a declaration the
decision rule leaves un-flattened. -/
theorem cpur_simple_spec (w : WNode)
    (hwire : w.ntype = .wire)
    (hhead : headIsWiretype w = false)
    (hp : (w.packed_ranges.getD []).length ≤ 1)
    (hu : (w.unpacked_ranges.getD []).length ≤ 1)
    (hwt : w.wiretype = none)
    (hport : (w.is_input ∨ w.is_output) →
      (w.packed_ranges.getD []) = [] ∧ (w.unpacked_ranges.getD []) = [])
    (hforce : ¬(w.force_convert = some 1)) :
    ∃ w', convert_packed_unpacked_range w = some w' ∧
      w'.multirange_dimensions = w.multirange_dimensions ∧
      w'.multirange_swapped = w.multirange_swapped ∧
      w'.children = w.children ++
        ((w.packed_ranges.getD []) ++ (w.unpacked_ranges.getD [])).map .rangeC ∧
      (((w.packed_ranges.getD []).length = 1 ∧ (w.unpacked_ranges.getD []).length = 1) →
        w'.ntype = .memory) := by
  rw [convert_packed_unpacked_range, if_neg (by simp [hhead])]
  simp only []
  by_cases hbe : ((w.packed_ranges.getD []).isEmpty = true ∧
      (w.unpacked_ranges.getD []).isEmpty = true)
  · rw [if_pos hbe]
    refine ⟨_, rfl, rfl, rfl, ?_, ?_⟩
    · simp only [List.isEmpty_iff] at hbe
      simp [hbe.1, hbe.2]
    · intro hlen
      exfalso
      simp only [List.isEmpty_iff] at hbe
      rw [hbe.1] at hlen
      simp at hlen
  · have hncc : ¬convert_node_cond w := by
      rintro (h | h | h | h | h | ⟨hio, hlen⟩ | h)
      · omega
      · omega
      · rw [hwt] at h; simp at h
      · rw [hwire] at h; exact NType.noConfusion h
      · rw [hwire] at h; exact NType.noConfusion h
      · obtain ⟨h1, h2⟩ := hport hio
        rw [h1, h2] at hlen
        simp at hlen
      · exact hforce h
    rw [if_neg hbe, if_neg hncc]
    refine ⟨_, rfl, rfl, rfl, rfl, ?_⟩
    intro ⟨hp1, hu1⟩
    have hio : ¬w.is_input ∧ ¬w.is_output := by
      by_contra hcon
      rcases not_and_or.mp hcon with h | h
      · obtain ⟨h1, _⟩ := hport (Or.inl (not_not.mp h))
        rw [h1] at hp1; simp at hp1
      · obtain ⟨h1, _⟩ := hport (Or.inr (not_not.mp h))
        rw [h1] at hp1; simp at hp1
    simp only []
    rw [if_pos ⟨hwire, hp1, hu1, hio.1, hio.2⟩]

/-- **C6.** A declaration with at most one packed and at most one
unpacked range, of wire type (not parameter-like), with no named type,
not a port carrying ranges and not marked for forced conversion is not
flattened: the dimension tables are untouched, the children are extended
only by the original simple ranges (no synthetic flat range), and when
there is exactly one packed and one unpacked range the node is retyped as
a memory. -/
theorem c6_simple_ranges_not_flattened (w : WNode)
    (hwire : w.ntype = .wire)
    (hhead : headIsWiretype w = false)
    (hp : (w.packed_ranges.getD []).length ≤ 1)
    (hu : (w.unpacked_ranges.getD []).length ≤ 1)
    (hwt : w.wiretype = none)
    (hport : (w.is_input ∨ w.is_output) →
      (w.packed_ranges.getD []) = [] ∧ (w.unpacked_ranges.getD []) = [])
    (hforce : ¬(w.force_convert = some 1)) :
    ∃ w', convert_packed_unpacked_range w = some w' ∧
      w'.multirange_dimensions = w.multirange_dimensions ∧
      w'.multirange_swapped = w.multirange_swapped ∧
      w'.children = w.children ++
        ((w.packed_ranges.getD []) ++ (w.unpacked_ranges.getD [])).map .rangeC ∧
      (((w.packed_ranges.getD []).length = 1 ∧ (w.unpacked_ranges.getD []).length = 1) →
        w'.ntype = .memory) :=
  cpur_simple_spec w hwire hhead hp hu hwt hport hforce

/-- Witness for C6 at a wire with packed `[3:0]` and unpacked `[1:0]`
ranges: no flattening, and the node is retyped as a memory. -/
theorem c6_simple_ranges_witness :
    ∃ w', convert_packed_unpacked_range
        { simpleWireDecl with unpacked_ranges := some [make_range 1 0] } = some w' ∧
      w'.multirange_dimensions = [] ∧ w'.ntype = .memory := by
  obtain ⟨w', hconv, hdims, _, _, hmem⟩ :=
    c6_simple_ranges_not_flattened
      { simpleWireDecl with unpacked_ranges := some [make_range 1 0] }
      rfl rfl (by decide) (by decide) rfl (by intro h; simp [simpleWireDecl] at h)
      (by decide)
  exact ⟨w', hconv, hdims, hmem (by decide)⟩

/-! ### C3 / C7 / C9 : struct path expansion -/

theorem sumWidths_nonneg : ∀ (t : List (String × Int)), (∀ p ∈ t, 1 ≤ p.2) →
    0 ≤ sumWidths t := by
  intro t
  induction t with
  | nil => intro _; simp [sumWidths]
  | cons p r ih =>
      intro h
      have h1 := h p (List.mem_cons_self p r)
      have h2 := ih (fun q hq => h q (List.mem_cons_of_mem p hq))
      simp only [sumWidths]
      omega

/-- `expand_dot` on the packed layout of a scalar-field struct returns
exactly the located field's stored bounds. -/
theorem expand_dot_layout_field : ∀ (fields : List (String × Int)) (m : Nat)
    (hm : m < fields.length),
    (fields.map Prod.fst).Nodup →
    stripBackslash (fields.get ⟨m, hm⟩).1 = (fields.get ⟨m, hm⟩).1 →
    expand_dot (layoutItems fields) (.mk (fields.get ⟨m, hm⟩).1 none none)
      = some ⟨.const (sumWidths (fields.drop (m + 1)) + (fields.get ⟨m, hm⟩).2 - 1),
              .const (sumWidths (fields.drop (m + 1)))⟩ := by
  intro fields
  induction fields with
  | nil =>
      intro m hm
      exact absurd hm (by simp)
  | cons f t ih =>
      intro m hm hnd hstrip
      cases m with
      | zero =>
          have hg0 : ((f :: t).get ⟨0, hm⟩) = f := rfl
          rw [hg0] at hstrip
          have hpa : ((SElem.item f.1 (sumWidths t + f.2 - 1) (sumWidths t)).name
              == stripBackslash ((f :: t).get ⟨0, hm⟩).1) = true := by
            rw [hg0, hstrip]
            simp [SElem.name]
          rw [expand_dot]
          simp only [layoutItems, List.find?_cons, hpa]
          simp [expand_dot_range, hg0]
      | succ k =>
          have hk : k < t.length := by
            simp only [List.length_cons] at hm
            omega
          have hget : ((f :: t).get ⟨k + 1, hm⟩) = t.get ⟨k, hk⟩ := rfl
          rw [hget] at hstrip ⊢
          have hnd' : (t.map Prod.fst).Nodup := (List.nodup_cons.mp hnd).2
          have hfm : f.1 ∉ t.map Prod.fst := (List.nodup_cons.mp hnd).1
          have hpa : ((SElem.item f.1 (sumWidths t + f.2 - 1) (sumWidths t)).name
              == stripBackslash (t.get ⟨k, hk⟩).1) = false := by
            rw [hstrip]
            simp only [SElem.name, beq_eq_false_iff_ne, ne_eq]
            intro hcon
            exact hfm (hcon ▸ List.mem_map_of_mem Prod.fst (t.get_mem k hk))
          have iht := ih k hk hnd' hstrip
          rw [expand_dot] at iht ⊢
          simp only [layoutItems, List.find?_cons, hpa, List.drop_succ_cons]
          exact iht

/-- **C3.** For a struct with scalar fields `f1..fk` of widths `w1..wk`
(declared order, distinct names), expanding the path `.f_m` yields a
range of width `w_m` whose low bound is the sum of the widths of the
fields declared after `f_m`. -/
theorem c3_struct_offset_sum_law (fields : List (String × Int)) (m : Nat)
    (hm : m < fields.length)
    (hw : ∀ p ∈ fields, 1 ≤ p.2)
    (hnd : (fields.map Prod.fst).Nodup)
    (hstrip : stripBackslash (fields.get ⟨m, hm⟩).1 = (fields.get ⟨m, hm⟩).1) :
    ∃ re, expand_dot (layoutItems fields) (.mk (fields.get ⟨m, hm⟩).1 none none) = some re ∧
      re.right.eval = sumWidths (fields.drop (m + 1)) ∧
      re.left.eval - re.right.eval + 1 = (fields.get ⟨m, hm⟩).2 := by
  refine ⟨_, expand_dot_layout_field fields m hm hnd hstrip, ?_, ?_⟩
  · rfl
  · simp only [RExpr.eval]
    ring

/-- Witness for C3 at the struct `{a : [7:0]; b : [3:0]}` and the path
`.a` (range `[11:4]`: low bound `4`, width `8`). -/
theorem c3_struct_offset_sum_law_witness :
    ∃ re, expand_dot (layoutItems [("a", 8), ("b", 4)]) (.mk "a" none none) = some re ∧
      re.right.eval = 4 ∧ re.left.eval - re.right.eval + 1 = 8 := by
  have h := c3_struct_offset_sum_law [("a", 8), ("b", 4)] 0 (by decide)
      (by decide) (by decide) (by decide)
  simpa [sumWidths] using h

/-- **C9.** A struct expansion request naming a field absent from the
struct's field list is fatal: `expand_dot` aborts (modelled by `none`)
and never returns a range. -/
theorem c9_expand_dot_unknown_field_fatal (cs : List SElem) (str : String)
    (sub : Option DotNode) (sel : Option SRange)
    (hmiss : ∀ e ∈ cs, e.name ≠ stripBackslash str) :
    expand_dot cs (.mk str sub sel) = none := by
  rw [expand_dot]
  have hfind : cs.find? (fun e => e.name == stripBackslash str) = none := by
    rw [List.find?_eq_none]
    intro e he
    simpa using hmiss e he
  rw [hfind]

/-- Witness for C9: looking up `.c` in the struct `{a; b}` aborts. -/
theorem c9_expand_dot_unknown_field_witness :
    expand_dot (layoutItems [("a", 8), ("b", 4)]) (.mk "c" none none) = none := by
  refine c9_expand_dot_unknown_field_fatal _ _ _ _ ?_
  decide

theorem get_max_offset_layout (f : String × Int) (t : List (String × Int))
    (hw : ∀ p ∈ f :: t, 1 ≤ p.2) :
    get_max_offset (.strct "" (-1) (-1) (layoutItems (f :: t)))
      = some (sumWidths (f :: t) - 1) := by
  have h1 : 1 ≤ f.2 := hw f (List.mem_cons_self f t)
  have h2 : 0 ≤ sumWidths t :=
    sumWidths_nonneg t (fun q hq => hw q (List.mem_cons_of_mem f hq))
  simp only [layoutItems]
  rw [get_max_offset]
  rw [if_neg (by omega)]
  rw [get_max_offset]
  rw [if_pos (by omega)]
  simp only [sumWidths]
  congr 1
  ring

/-- **C7.** When a struct access also indexes the enclosing flattened
unpacked declaration, `convert_dot` adds to both expanded bounds the term
`(outer_dimension_size - 1 - index) * struct_element_size`, where the
outer dimension size is the width of the declaration's last recorded
dimension (the last `multirange_dimensions` entry) and the struct element
size is the struct's bit width. -/
theorem c7_convert_dot_outer_index_term
    (fields : List (String × Int)) (w : WNode) (dot : DotNode) (rest : List INode)
    (ix : RExpr) (kids : List RExpr) (l r : RExpr)
    (hsn : ¬w.ntype = .strct)
    (hwt : w.wiretype = some (.strct "" (-1) (-1) (layoutItems fields)))
    (hne : fields ≠ [])
    (hw1 : ∀ p ∈ fields, 1 ≤ p.2)
    (hdims : ¬w.multirange_dimensions = [])
    (hex : expand_dot (layoutItems fields) dot = some ⟨l, r⟩)
    (hk : kids.head? = some ix) :
    ∃ re, convert_dot w (.rangeI kids :: rest) dot = some re ∧
      re.left.eval = l.eval +
        (w.multirange_dimensions.getLastD 0 - 1 - ix.eval) * sumWidths fields ∧
      re.right.eval = r.eval +
        (w.multirange_dimensions.getLastD 0 - 1 - ix.eval) * sumWidths fields := by
  obtain ⟨f, t, rfl⟩ : ∃ f t, fields = f :: t := by
    cases fields with
    | nil => exact absurd rfl hne
    | cons f t => exact ⟨f, t, rfl⟩
  rw [convert_dot, if_neg hsn]
  rw [hwt]
  simp only [Option.isSome_some, if_true, SElem.childrenOf]
  rw [hex]
  simp only [List.head?_cons]
  rw [get_max_offset_layout f t hw1]
  simp only []
  rw [if_neg (by simpa [List.isEmpty_iff] using hdims)]
  rw [hk]
  simp only []
  refine ⟨_, rfl, ?_, ?_⟩
  · simp only [RExpr.eval]
    have : sumWidths (f :: t) - 1 + 1 = sumWidths (f :: t) := by ring
    rw [this]
    ring
  · simp only [RExpr.eval]
    have : sumWidths (f :: t) - 1 + 1 = sumWidths (f :: t) := by ring
    rw [this]
    ring

/-- Witness for C7: struct `{a : [7:0]; b : [3:0]}` (size 12) inside a
flattened declaration with last recorded dimension width 2, access
`x[0].b`: both bounds of `.b`'s range `[3:0]` are shifted by
`(2 - 1 - 0) * 12 = 12`. -/
theorem c7_convert_dot_outer_index_witness :
    ∃ re, convert_dot
        { ntype := .wire, str := "\\m", is_input := false, is_output := false,
          packed_ranges := none, unpacked_ranges := none,
          wiretype := some (.strct "" (-1) (-1) (layoutItems [("a", 8), ("b", 4)])),
          selfStruct := none, force_convert := none,
          multirange_dimensions := [0, 2], multirange_swapped := [false],
          children := [] }
        [.rangeI [.const 0]] (.mk "b" none none) = some re ∧
      re.left.eval = 15 ∧ re.right.eval = 12 := by
  have hex := expand_dot_layout_field [("a", 8), ("b", 4)] 1 (by decide) (by decide) (by decide)
  obtain ⟨re, h1, h2, h3⟩ := c7_convert_dot_outer_index_term [("a", 8), ("b", 4)]
    { ntype := .wire, str := "\\m", is_input := false, is_output := false,
      packed_ranges := none, unpacked_ranges := none,
      wiretype := some (.strct "" (-1) (-1) (layoutItems [("a", 8), ("b", 4)])),
      selfStruct := none, force_convert := none,
      multirange_dimensions := [0, 2], multirange_swapped := [false],
      children := [] }
    (.mk "b" none none) [] (.const 0) [.const 0] _ _
    (by decide) rfl (by decide) (by decide) (by decide) hex rfl
  refine ⟨re, h1, ?_, ?_⟩
  · rw [h2]
    norm_num [RExpr.eval, sumWidths]
  · rw [h3]
    norm_num [RExpr.eval, sumWidths]

/-! ### C10 : check_memories -/

theorem alookup_mem : ∀ (m : List (String × Nat)) (s : String) (i : Nat),
    alookup m s = some i → (s, i) ∈ m := by
  intro m
  induction m with
  | nil => intro s i h; exact absurd h (by simp [alookup])
  | cons p t ih =>
      intro s i h
      rw [alookup] at h
      by_cases hs : p.1 = s
      · rw [if_pos hs] at h
        obtain rfl := Option.some.inj h
        have : p = (s, p.2) := by rw [← hs]
        rw [this]
        exact List.mem_cons_self _ _
      · rw [if_neg hs] at h
        exact List.mem_cons_of_mem p (ih s i h)

theorem eraseForce_setForce (v : Int) (w : WNode) :
    eraseForce (setForce v w) = eraseForce w := rfl

theorem setForce_setForce (v u : Int) (w : WNode) :
    setForce v (setForce u w) = setForce v w := rfl

theorem sim_set (ar cur : List WNode) (i : Nat) (x : WNode) (v : Int)
    (hsim : ArenaSim ar cur) (hx : cur.get? i = some x) :
    ArenaSim ar (cur.set i (setForce v x)) := by
  intro j
  by_cases hij : i = j
  · subst hij
    have hlen : i < cur.length := by
      by_contra hcon
      rw [List.get?_eq_none.mpr (by omega)] at hx
      exact Option.noConfusion hx
    rw [List.get?_set_eq_of_lt _ hlen]
    rw [← hsim i, hx]
    rfl
  · rw [List.get?_set_ne _ _ (fun h => hij h)]
    exact hsim j

theorem cmReadmemh_spec (node : WNode) (st st' : CMSt)
    (h : cmReadmemh node st = some st') :
    st'.1 = st.1 ∧ (st'.2 = st.2 ∨ ∃ s i x, alookup st.1 s = some i ∧
      st.2.get? i = some x ∧ st'.2 = st.2.set i (setForce 0 x)) := by
  unfold cmReadmemh at h
  split at h
  · split at h
    · exact absurd h (by simp)
    · split at h
      · exact absurd h (by simp)
      · split at h
        · exact absurd h (by simp)
        · obtain rfl := Option.some.inj h
          exact ⟨rfl, Or.inr ⟨_, _, _, by assumption, by assumption, rfl⟩⟩
  · obtain rfl := Option.some.inj h
    exact ⟨rfl, Or.inl rfl⟩

theorem cmRegister_spec (node : WNode) (k : Nat) (st st' : CMSt)
    (h : cmRegister node k st = some st') :
    st'.2 = st.2 ∧ (st'.1 = st.1 ∨
      (node.ntype = .wire ∧ (node.packed_ranges.getD []).length = 1 ∧
       (node.unpacked_ranges.getD []).length = 1 ∧ alookup st.1 node.str = none ∧
       st'.1 = (node.str, k) :: st.1)) := by
  unfold cmRegister at h
  split at h
  next hcond =>
    split at h
    · exact absurd h (by simp)
    · obtain rfl := Option.some.inj h
      exact ⟨rfl, Or.inr ⟨hcond.1, hcond.2.1, hcond.2.2, by assumption, rfl⟩⟩
  next =>
    obtain rfl := Option.some.inj h
    exact ⟨rfl, Or.inl rfl⟩

theorem cmIdent_spec (node : WNode) (st st' : CMSt)
    (h : cmIdent node st = some st') :
    st'.1 = st.1 ∧ (st'.2 = st.2 ∨ ∃ i x, alookup st.1 node.str = some i ∧
      st.2.get? i = some x ∧ x.force_convert.isSome = false ∧
      st'.2 = st.2.set i (setForce 1 x)) := by
  unfold cmIdent at h
  split at h
  · split at h
    · obtain rfl := Option.some.inj h
      exact ⟨rfl, Or.inl rfl⟩
    · split at h
      · exact absurd h (by simp)
      · split at h
        next hcond =>
          obtain rfl := Option.some.inj h
          exact ⟨rfl, Or.inr ⟨_, _, by assumption, by assumption, hcond.1, rfl⟩⟩
        next =>
          obtain rfl := Option.some.inj h
          exact ⟨rfl, Or.inl rfl⟩
  · obtain rfl := Option.some.inj h
    exact ⟨rfl, Or.inl rfl⟩

theorem cmRun_append (l1 l2 : List Nat) : ∀ (st : CMSt),
    cmRun st (l1 ++ l2) = (cmRun st l1).bind (fun st1 => cmRun st1 l2) := by
  induction l1 with
  | nil => intro st; rfl
  | cons k t ih =>
      intro st
      simp only [List.cons_append, cmRun]
      cases check_memories_step st k with
      | none => rfl
      | some st1 => simp only [Option.some_bind]; exact ih st1

theorem cmRun_inv (P : CMSt → Prop) : ∀ (ks : List Nat),
    (∀ st st1 k, k ∈ ks → check_memories_step st k = some st1 → P st → P st1) →
    ∀ st st', cmRun st ks = some st' → P st → P st' := by
  intro ks
  induction ks with
  | nil =>
      intro _ st st' hrun hp
      rw [cmRun] at hrun
      obtain rfl := Option.some.inj hrun
      exact hp
  | cons k t ih =>
      intro hstep st st' hrun hp
      rw [cmRun] at hrun
      obtain ⟨st1, h1, h2⟩ := Option.bind_eq_some.mp hrun
      exact ih (fun s s1 j hj => hstep s s1 j (List.mem_cons_of_mem k hj)) st1 st' h2
        (hstep st st1 k (List.mem_cons_self k t) h1 hp)

theorem get?_lt {α : Type} (l : List α) (i : Nat) (x : α) (h : l.get? i = some x) :
    i < l.length := by
  by_contra hcon
  rw [List.get?_eq_none.mpr (by omega)] at h
  exact Option.noConfusion h

theorem setF0_cases (x w : WNode)
    (h : x = w ∨ x = setForce 1 w ∨ x = setForce 0 w) :
    setForce 0 x = setForce 0 w := by
  rcases h with rfl | rfl | rfl
  · rfl
  · rfl
  · rfl

theorem node_sim_of_get (arena cur : List WNode) (k : Nat) (node : WNode)
    (hsim : ArenaSim arena cur) (hnode : cur.get? k = some node) :
    ∃ wk, arena.get? k = some wk ∧ eraseForce node = eraseForce wk := by
  have h := hsim k
  rw [hnode] at h
  cases harena : arena.get? k with
  | none => rw [harena] at h; exact Option.noConfusion h
  | some wk =>
      rw [harena] at h
      exact ⟨wk, rfl, Option.some.inj h⟩

theorem some_eq_some {α : Type} {A : Option α} {x y : α}
    (h1 : A = some x) (h2 : A = some y) : x = y :=
  Option.some.inj (h1.symm.trans h2)

theorem step_pre (arena : List WNode) (a : Nat) (w : WNode)
    (huniq : ∀ j wj, arena.get? j = some wj → j ≠ a → wj.ntype = .wire →
      (wj.packed_ranges.getD []).length = 1 → (wj.unpacked_ranges.getD []).length = 1 →
      wj.str ≠ w.str)
    (st st1 : CMSt) (k : Nat) (hk : k ≠ a)
    (hstep : check_memories_step st k = some st1)
    (hp : ArenaSim arena st.2 ∧ MemInvPre a w st) :
    ArenaSim arena st1.2 ∧ MemInvPre a w st1 := by
  have hsim := hp.1
  have hwa := hp.2.1
  have hlk := hp.2.2.1
  have hne := hp.2.2.2
  unfold check_memories_step at hstep
  split at hstep
  · exact absurd hstep (by simp)
  next node hnode =>
    obtain ⟨stb, hAB, hC⟩ := Option.bind_eq_some.mp hstep
    obtain ⟨sta, hA, hB⟩ := Option.bind_eq_some.mp hAB
    obtain ⟨hA1, hA2⟩ := cmReadmemh_spec node st sta hA
    have hstA : ArenaSim arena sta.2 ∧ MemInvPre a w sta := by
      rcases hA2 with heq | ⟨s, i, x, hl, hx, heq⟩
      · exact ⟨heq ▸ hsim, heq ▸ hwa, hA1 ▸ hlk, fun p hpm => hne p (hA1 ▸ hpm)⟩
      · have hia : i ≠ a := hne (s, i) (alookup_mem _ _ _ hl)
        refine ⟨heq ▸ sim_set arena st.2 i x 0 hsim hx, ?_, hA1 ▸ hlk,
          fun p hpm => hne p (hA1 ▸ hpm)⟩
        rw [heq, List.get?_set_ne _ _ hia]
        exact hwa
    have hsimA := hstA.1
    have hwaA := hstA.2.1
    have hlkA := hstA.2.2.1
    have hneA := hstA.2.2.2
    obtain ⟨hB1, hB2⟩ := cmRegister_spec node k sta stb hB
    have hstB : ArenaSim arena stb.2 ∧ MemInvPre a w stb := by
      rcases hB2 with heq | ⟨hwire', hp1', hu1', hlnone, heq⟩
      · exact ⟨hB1 ▸ hsimA, hB1 ▸ hwaA, heq ▸ hlkA, fun p hpm => hneA p (heq ▸ hpm)⟩
      · obtain ⟨wk, hak, hef⟩ := node_sim_of_get arena st.2 k node hsim hnode
        have hnstr : node.str = wk.str := by
          have h := congrArg WNode.str hef
          exact h
        have hnty : node.ntype = wk.ntype := by
          have h := congrArg WNode.ntype hef
          exact h
        have hnpk : node.packed_ranges = wk.packed_ranges := by
          have h := congrArg WNode.packed_ranges hef
          exact h
        have hnup : node.unpacked_ranges = wk.unpacked_ranges := by
          have h := congrArg WNode.unpacked_ranges hef
          exact h
        have hnw : node.str ≠ w.str := by
          rw [hnstr]
          exact huniq k wk hak hk (hnty ▸ hwire') (hnpk ▸ hp1') (hnup ▸ hu1')
        refine ⟨hB1 ▸ hsimA, hB1 ▸ hwaA, ?_, ?_⟩
        · rw [heq, alookup, if_neg hnw]
          exact hlkA
        · intro p hpm
          rw [heq] at hpm
          rcases List.mem_cons.mp hpm with rfl | hpm'
          · exact hk
          · exact hneA p hpm'
    have hsimB := hstB.1
    have hwaB := hstB.2.1
    have hlkB := hstB.2.2.1
    have hneB := hstB.2.2.2
    obtain ⟨hC1, hC2⟩ := cmIdent_spec node stb st1 hC
    rcases hC2 with heq | ⟨i, x, hl, hx, hfc, heq⟩
    · exact ⟨heq ▸ hsimB, heq ▸ hwaB, hC1 ▸ hlkB, fun p hpm => hneB p (hC1 ▸ hpm)⟩
    · have hia : i ≠ a := hneB (node.str, i) (alookup_mem _ _ _ hl)
      refine ⟨heq ▸ sim_set arena stb.2 i x 1 hsimB hx, ?_, hC1 ▸ hlkB,
        fun p hpm => hneB p (hC1 ▸ hpm)⟩
      rw [heq, List.get?_set_ne _ _ hia]
      exact hwaB

theorem step_mid (arena : List WNode) (a : Nat) (w : WNode)
    (st st1 : CMSt) (k : Nat) (hk : k ≠ a)
    (hstep : check_memories_step st k = some st1)
    (hp : ArenaSim arena st.2 ∧ MemInvMid a w st) :
    ArenaSim arena st1.2 ∧ MemInvMid a w st1 := by
  have hsim := hp.1
  have hlk := hp.2.1
  have hval := hp.2.2.1
  have hres := hp.2.2.2
  unfold check_memories_step at hstep
  split at hstep
  · exact absurd hstep (by simp)
  next node hnode =>
    obtain ⟨stb, hAB, hC⟩ := Option.bind_eq_some.mp hstep
    obtain ⟨sta, hA, hB⟩ := Option.bind_eq_some.mp hAB
    obtain ⟨hA1, hA2⟩ := cmReadmemh_spec node st sta hA
    have hstA : ArenaSim arena sta.2 ∧ MemInvMid a w sta := by
      rcases hA2 with heq | ⟨s, i, x, hl, hx, heq⟩
      · exact ⟨heq ▸ hsim, hA1 ▸ hlk, heq ▸ hval, fun p hpm => hres p (hA1 ▸ hpm)⟩
      · refine ⟨heq ▸ sim_set arena st.2 i x 0 hsim hx, hA1 ▸ hlk, ?_,
          fun p hpm => hres p (hA1 ▸ hpm)⟩
        by_cases hia : i = a
        · subst hia
          have hxval : x = w ∨ x = setForce 1 w ∨ x = setForce 0 w := by
            rcases hval with hv | hv | hv
            · exact Or.inl (some_eq_some hx hv)
            · exact Or.inr (Or.inl (some_eq_some hx hv))
            · exact Or.inr (Or.inr (some_eq_some hx hv))
          refine Or.inr (Or.inr ?_)
          rw [heq, List.get?_set_eq_of_lt _ (get?_lt _ _ _ hx), setF0_cases x w hxval]
        · rw [heq, List.get?_set_ne _ _ hia]
          exact hval
    have hsimA := hstA.1
    have hlkA := hstA.2.1
    have hvalA := hstA.2.2.1
    have hresA := hstA.2.2.2
    obtain ⟨hB1, hB2⟩ := cmRegister_spec node k sta stb hB
    have hstB : ArenaSim arena stb.2 ∧ MemInvMid a w stb := by
      rcases hB2 with heq | ⟨_, _, _, hlnone, heq⟩
      · exact ⟨hB1 ▸ hsimA, heq ▸ hlkA, hB1 ▸ hvalA, fun p hpm => hresA p (heq ▸ hpm)⟩
      · have hnw : node.str ≠ w.str := by
          intro hcon
          rw [hcon] at hlnone
          rw [hlnone] at hlkA
          exact Option.noConfusion hlkA
        refine ⟨hB1 ▸ hsimA, ?_, hB1 ▸ hvalA, ?_⟩
        · rw [heq, alookup, if_neg hnw]
          exact hlkA
        · intro p hpm hp2
          rw [heq] at hpm
          rcases List.mem_cons.mp hpm with rfl | hpm'
          · exact absurd hp2 hk
          · exact hresA p hpm' hp2
    have hsimB := hstB.1
    have hlkB := hstB.2.1
    have hvalB := hstB.2.2.1
    have hresB := hstB.2.2.2
    obtain ⟨hC1, hC2⟩ := cmIdent_spec node stb st1 hC
    rcases hC2 with heq | ⟨i, x, hl, hx, hfc, heq⟩
    · exact ⟨heq ▸ hsimB, hC1 ▸ hlkB, heq ▸ hvalB, fun p hpm => hresB p (hC1 ▸ hpm)⟩
    · refine ⟨heq ▸ sim_set arena stb.2 i x 1 hsimB hx, hC1 ▸ hlkB, ?_,
        fun p hpm => hresB p (hC1 ▸ hpm)⟩
      by_cases hia : i = a
      · subst hia
        have hxval : x = w ∨ x = setForce 1 w ∨ x = setForce 0 w := by
          rcases hvalB with hv | hv | hv
          · exact Or.inl (some_eq_some hx hv)
          · exact Or.inr (Or.inl (some_eq_some hx hv))
          · exact Or.inr (Or.inr (some_eq_some hx hv))
        have hxw : x = w := by
          rcases hxval with rfl | rfl | rfl
          · rfl
          · simp [setForce] at hfc
          · simp [setForce] at hfc
        refine Or.inr (Or.inl ?_)
        rw [heq, List.get?_set_eq_of_lt _ (get?_lt _ _ _ hx), hxw]
      · rw [heq, List.get?_set_ne _ _ hia]
        exact hvalB

theorem post_A (a : Nat) (w node : WNode) (st st' : CMSt)
    (h : cmReadmemh node st = some st') (hp : MemInvPost a w st) :
    MemInvPost a w st' := by
  obtain ⟨_, h2⟩ := cmReadmemh_spec node st st' h
  have hp' : st.2.get? a = some (setForce 0 w) := hp
  rcases h2 with heq | ⟨s, i, x, hl, hx, heq⟩
  · show st'.2.get? a = some (setForce 0 w)
    rw [heq]
    exact hp'
  · by_cases hia : i = a
    · subst hia
      have hxw : x = setForce 0 w := some_eq_some hx hp'
      show st'.2.get? i = some (setForce 0 w)
      rw [heq, List.get?_set_eq_of_lt _ (get?_lt _ _ _ hx), hxw, setForce_setForce]
    · show st'.2.get? a = some (setForce 0 w)
      rw [heq, List.get?_set_ne _ _ hia]
      exact hp

theorem post_B (a : Nat) (w node : WNode) (k : Nat) (st st' : CMSt)
    (h : cmRegister node k st = some st') (hp : MemInvPost a w st) :
    MemInvPost a w st' := by
  obtain ⟨h2, _⟩ := cmRegister_spec node k st st' h
  show st'.2.get? a = some (setForce 0 w)
  rw [h2]
  exact hp

theorem post_C (a : Nat) (w node : WNode) (st st' : CMSt)
    (h : cmIdent node st = some st') (hp : MemInvPost a w st) :
    MemInvPost a w st' := by
  obtain ⟨_, h2⟩ := cmIdent_spec node st st' h
  have hp' : st.2.get? a = some (setForce 0 w) := hp
  rcases h2 with heq | ⟨i, x, hl, hx, hfc, heq⟩
  · show st'.2.get? a = some (setForce 0 w)
    rw [heq]
    exact hp'
  · by_cases hia : i = a
    · subst hia
      have hxw : x = setForce 0 w := some_eq_some hx hp'
      rw [hxw] at hfc
      exact absurd hfc (by simp [setForce])
    · show st'.2.get? a = some (setForce 0 w)
      rw [heq, List.get?_set_ne _ _ hia]
      exact hp

theorem step_post (a : Nat) (w : WNode) (st st1 : CMSt) (k : Nat)
    (hstep : check_memories_step st k = some st1)
    (hp : MemInvPost a w st) : MemInvPost a w st1 := by
  unfold check_memories_step at hstep
  split at hstep
  · exact absurd hstep (by simp)
  next node hnode =>
    obtain ⟨stb, hAB, hC⟩ := Option.bind_eq_some.mp hstep
    obtain ⟨sta, hA, hB⟩ := Option.bind_eq_some.mp hAB
    exact post_C a w node stb st1 hC (post_B a w node k sta stb hB (post_A a w node st sta hA hp))

theorem cmRun_singleton (st : CMSt) (k : Nat) :
    cmRun st [k] = check_memories_step st k := by
  rw [cmRun]
  cases check_memories_step st k with
  | none => rfl
  | some st1 => rfl

theorem step_at_a (arena : List WNode) (a : Nat) (w : WNode) (st st1 : CMSt)
    (hty : w.ntype = .wire)
    (hp1 : (w.packed_ranges.getD []).length = 1)
    (hu1 : (w.unpacked_ranges.getD []).length = 1)
    (hnotrm : ¬w.str = "\\$readmemh")
    (hstep : check_memories_step st a = some st1)
    (hp : ArenaSim arena st.2 ∧ MemInvPre a w st) :
    ArenaSim arena st1.2 ∧ MemInvMid a w st1 := by
  have hsim := hp.1
  have hwa := hp.2.1
  have hlk := hp.2.2.1
  have hne := hp.2.2.2
  unfold check_memories_step at hstep
  split at hstep
  · exact absurd hstep (by simp)
  next node hnode =>
    have hnw : node = w := some_eq_some hnode hwa
    obtain ⟨stb, hAB, hC⟩ := Option.bind_eq_some.mp hstep
    obtain ⟨sta, hA, hB⟩ := Option.bind_eq_some.mp hAB
    have hA' : sta = st := by
      unfold cmReadmemh at hA
      rw [hnw, if_neg hnotrm] at hA
      exact (Option.some.inj hA).symm
    rw [hA'] at hB
    have hB' : stb = ((w.str, a) :: st.1, st.2) := by
      unfold cmRegister at hB
      rw [hnw] at hB
      rw [if_pos ⟨hty, hp1, hu1⟩] at hB
      split at hB
      next heq => rw [hlk] at heq; exact Option.noConfusion heq
      next => exact (Option.some.inj hB).symm
    rw [hB'] at hC
    have hC' : st1 = ((w.str, a) :: st.1, st.2) := by
      unfold cmIdent at hC
      rw [hnw] at hC
      rw [if_neg (by rw [hty]; intro hcon; exact NType.noConfusion hcon)] at hC
      exact (Option.some.inj hC).symm
    rw [hC']
    refine ⟨hsim, ?_, Or.inl hwa, ?_⟩
    · show alookup ((w.str, a) :: st.1) w.str = some a
      simp [alookup]
    · intro p hpm hp2
      rcases List.mem_cons.mp hpm with rfl | hpm'
      · rfl
      · exact absurd hp2 (hne p hpm')

theorem step_at_b (arena : List WNode) (a b : Nat) (w rm : WNode) (c : CNode)
    (st st1 : CMSt)
    (hrmb : arena.get? b = some rm)
    (hrmstr : rm.str = "\\$readmemh")
    (hrmc : rm.children.get? 1 = some c)
    (hcs : c.strOf = w.str)
    (hstep : check_memories_step st b = some st1)
    (hp : ArenaSim arena st.2 ∧ MemInvMid a w st) :
    MemInvPost a w st1 := by
  have hsim := hp.1
  have hlk := hp.2.1
  have hval := hp.2.2.1
  unfold check_memories_step at hstep
  split at hstep
  · exact absurd hstep (by simp)
  next node hnode =>
    obtain ⟨stb, hAB, hC⟩ := Option.bind_eq_some.mp hstep
    obtain ⟨sta, hA, hB⟩ := Option.bind_eq_some.mp hAB
    obtain ⟨wk, hak, hef⟩ := node_sim_of_get arena st.2 b node hsim hnode
    have hwkrm : wk = rm := some_eq_some hak hrmb
    have hnstr : node.str = rm.str := by
      have h : node.str = wk.str := by
        have h0 := congrArg WNode.str hef
        exact h0
      rw [hwkrm] at h
      exact h
    have hnch : node.children = rm.children := by
      have h : node.children = wk.children := by
        have h0 := congrArg WNode.children hef
        exact h0
      rw [hwkrm] at h
      exact h
    have hpostA : MemInvPost a w sta := by
      unfold cmReadmemh at hA
      rw [if_pos (by rw [hnstr, hrmstr])] at hA
      split at hA
      next heq =>
        rw [hnch, hrmc] at heq
        exact Option.noConfusion heq
      next c' heq =>
        have hc' : c' = c := by
          rw [hnch, hrmc] at heq
          exact (Option.some.inj heq).symm
        subst hc'
        split at hA
        next heq2 =>
          rw [hcs, hlk] at heq2
          exact Option.noConfusion heq2
        next i heq2 =>
          have hia : i = a := by
            rw [hcs, hlk] at heq2
            exact (Option.some.inj heq2).symm
          subst hia
          split at hA
          next heq3 =>
            rcases hval with hv | hv | hv <;> rw [hv] at heq3 <;> exact Option.noConfusion heq3
          next x heq3 =>
            have hxval : x = w ∨ x = setForce 1 w ∨ x = setForce 0 w := by
              rcases hval with hv | hv | hv
              · exact Or.inl (some_eq_some heq3 hv)
              · exact Or.inr (Or.inl (some_eq_some heq3 hv))
              · exact Or.inr (Or.inr (some_eq_some heq3 hv))
            have hsta : sta = (st.1, st.2.set i (setForce 0 x)) :=
              (Option.some.inj hA).symm
            subst hsta
            show (st.2.set i (setForce 0 x)).get? i = some (setForce 0 w)
            rw [List.get?_set_eq_of_lt _ (get?_lt _ _ _ heq3), setF0_cases x w hxval]
    exact post_C a w node stb st1 hC (post_B a w node b sta stb hB hpostA)

/-- **C10 counterexample.** The claim's conclusion fails for a *port*
declaration: an input wire with one packed and one unpacked range, loaded
by `\$readmemh`, gets `force_convert = 0` but is still flattened into a
single synthetic range (non-empty dimension table) and stays `AST_WIRE`
instead of becoming a two-level memory. -/
theorem c10_counterexample_port_still_flattened :
    (((check_memories [portMemWire, readmemhNode]).bind
        (fun st => (st.2.get? 0).bind convert_packed_unpacked_range)).map
      (fun w => (w.multirange_dimensions.isEmpty, w.ntype))) = some (false, NType.wire) := by
  rfl

/-- **C10 (amended).** A declaration with exactly one packed and one
unpacked range, visited before a `\$readmemh` naming it, gets
`force_convert = 0` which later whole-identifier references never
overwrite (the final state still carries `0`); consequently — *provided
the declaration is not a port and carries no named type* — it is not
flattened and is retyped as a two-level memory. -/
theorem c10_readmemh_forces_memory
    (arena : List WNode) (a b : Nat) (w rm : WNode) (c : CNode) (st' : CMSt)
    (hab : a < b) (hbn : b < arena.length)
    (hwa : arena.get? a = some w)
    (hty : w.ntype = .wire)
    (hp1 : (w.packed_ranges.getD []).length = 1)
    (hu1 : (w.unpacked_ranges.getD []).length = 1)
    (hnotrm : ¬w.str = "\\$readmemh")
    (hrmb : arena.get? b = some rm)
    (hrmstr : rm.str = "\\$readmemh")
    (hrmc : rm.children.get? 1 = some c)
    (hcs : c.strOf = w.str)
    (huniq : ∀ j wj, arena.get? j = some wj → j ≠ a → wj.ntype = .wire →
      (wj.packed_ranges.getD []).length = 1 → (wj.unpacked_ranges.getD []).length = 1 →
      wj.str ≠ w.str)
    (hrun : check_memories arena = some st')
    (hhead : headIsWiretype w = false)
    (hwt : w.wiretype = none)
    (hin : w.is_input = false) (hout : w.is_output = false)
    (hdims : w.multirange_dimensions = []) :
    st'.2.get? a = some (setForce 0 w) ∧
    ∃ w2, convert_packed_unpacked_range (setForce 0 w) = some w2 ∧
      w2.ntype = .memory ∧
      w2.multirange_dimensions = [] ∧
      w2.children = w.children ++
        ((w.packed_ranges.getD []) ++ (w.unpacked_ranges.getD [])).map .rangeC := by
  have hpost : MemInvPost a w st' := by
    have e1 : List.range' 0 a ++ [a] = List.range' 0 (a + 1) := by
      have h := List.range'_append_1 0 a 1
      rw [Nat.zero_add, Nat.add_comm 1 a] at h
      exact h
    have e2 : List.range' (a + 1) (b - a - 1) ++ [b] = List.range' (a + 1) (b - a) := by
      have h := List.range'_append_1 (a + 1) (b - a - 1) 1
      rw [show a + 1 + (b - a - 1) = b by omega, show 1 + (b - a - 1) = b - a by omega] at h
      exact h
    have e3 : List.range' (a + 1) (b - a) ++ List.range' (b + 1) (arena.length - b - 1)
        = List.range' (a + 1) (arena.length - a - 1) := by
      have h := List.range'_append_1 (a + 1) (b - a) (arena.length - b - 1)
      rw [show a + 1 + (b - a) = b + 1 by omega,
        show arena.length - b - 1 + (b - a) = arena.length - a - 1 by omega] at h
      exact h
    have e4 : List.range' 0 (a + 1) ++ List.range' (a + 1) (arena.length - a - 1)
        = List.range' 0 arena.length := by
      have h := List.range'_append_1 0 (a + 1) (arena.length - a - 1)
      rw [Nat.zero_add, show arena.length - a - 1 + (a + 1) = arena.length by omega] at h
      exact h
    have hlist : List.range arena.length =
        List.range' 0 a ++ ([a] ++ (List.range' (a + 1) (b - a - 1) ++
          ([b] ++ List.range' (b + 1) (arena.length - b - 1)))) := by
      rw [List.range_eq_range', ← e4, ← e1, ← e3, ← e2]
      simp [List.append_assoc]
    unfold check_memories at hrun
    rw [hlist, cmRun_append] at hrun
    obtain ⟨st1, h1, hrun⟩ := Option.bind_eq_some.mp hrun
    rw [cmRun_append] at hrun
    obtain ⟨st2, h2, hrun⟩ := Option.bind_eq_some.mp hrun
    rw [cmRun_append] at hrun
    obtain ⟨st3, h3, hrun⟩ := Option.bind_eq_some.mp hrun
    rw [cmRun_append] at hrun
    obtain ⟨st4, h4, hrun⟩ := Option.bind_eq_some.mp hrun
    rw [cmRun_singleton] at h2 h4
    have hst1 : ArenaSim arena st1.2 ∧ MemInvPre a w st1 := by
      refine cmRun_inv (fun st => ArenaSim arena st.2 ∧ MemInvPre a w st)
        (List.range' 0 a) ?_ _ _ h1 ?_
      · intro s s1 k hk hs hp
        have hka : k ≠ a := by
          obtain ⟨i, hi, rfl⟩ := List.mem_range'.mp hk
          omega
        exact step_pre arena a w huniq s s1 k hka hs hp
      · exact ⟨fun j => rfl, hwa, rfl, by intro p hpm; exact absurd hpm (List.not_mem_nil p)⟩
    have hst2 : ArenaSim arena st2.2 ∧ MemInvMid a w st2 :=
      step_at_a arena a w st1 st2 hty hp1 hu1 hnotrm h2 hst1
    have hst3 : ArenaSim arena st3.2 ∧ MemInvMid a w st3 := by
      refine cmRun_inv (fun st => ArenaSim arena st.2 ∧ MemInvMid a w st)
        (List.range' (a + 1) (b - a - 1)) ?_ _ _ h3 hst2
      intro s s1 k hk hs hp
      have hka : k ≠ a := by
        obtain ⟨i, hi, rfl⟩ := List.mem_range'.mp hk
        omega
      exact step_mid arena a w s s1 k hka hs hp
    have hst4 : MemInvPost a w st4 :=
      step_at_b arena a b w rm c st3 st4 hrmb hrmstr hrmc hcs h4 hst3
    exact cmRun_inv (fun st => MemInvPost a w st) _
      (fun s s1 k _ hs hp => step_post a w s s1 k hs hp) _ _ hrun hst4
  refine ⟨hpost, ?_⟩
  obtain ⟨w2, hconv, hdims2, hswap2, hch2, hmem2⟩ :=
    cpur_simple_spec (setForce 0 w) hty hhead (le_of_eq hp1)
      (le_of_eq hu1) hwt
      (by
        intro hio
        rcases hio with hio | hio
        · rw [show (setForce 0 w).is_input = w.is_input from rfl, hin] at hio
          exact Bool.noConfusion hio
        · rw [show (setForce 0 w).is_output = w.is_output from rfl, hout] at hio
          exact Bool.noConfusion hio)
      (by
        intro hcon
        have h01 : (0 : Int) = 1 := Option.some.inj hcon
        norm_num at h01)
  refine ⟨w2, hconv, hmem2 ⟨hp1, hu1⟩, ?_, hch2⟩
  rw [hdims2]
  exact hdims

/-- **C10 witness.** Concrete run: the two-node module `[memWireDecl,
readmemhNode]` ends with `force_convert = 0` on the declaration, which is
then retyped `AST_MEMORY` with its two ranges kept as children and no
dimension table. -/
theorem c10_readmemh_forces_memory_witness :
    ∃ st', check_memories [memWireDecl, readmemhNode] = some st' ∧
      st'.2.get? 0 = some (setForce 0 memWireDecl) ∧
      ∃ w2, convert_packed_unpacked_range (setForce 0 memWireDecl) = some w2 ∧
        w2.ntype = .memory ∧ w2.multirange_dimensions = [] ∧
        w2.children = memWireDecl.children ++
          ((memWireDecl.packed_ranges.getD []) ++
            (memWireDecl.unpacked_ranges.getD [])).map .rangeC := by
  obtain ⟨st', hrun⟩ : ∃ st',
      check_memories [memWireDecl, readmemhNode] = some st' := ⟨_, rfl⟩
  have h := c10_readmemh_forces_memory [memWireDecl, readmemhNode] 0 1
    memWireDecl readmemhNode (.identC "\\mem") st'
    (by decide) (by decide) rfl rfl rfl rfl
    (by decide) rfl rfl rfl rfl
    (by
      intro j wj hj hj0 hty hp hu
      rcases j with _ | _ | j
      · exact absurd rfl hj0
      · have hwj : readmemhNode = wj := Option.some.inj hj
        rw [← hwj] at hty
        exact NType.noConfusion hty
      · exact Option.noConfusion hj)
    hrun rfl rfl rfl rfl rfl
  exact ⟨st', hrun, h.1, h.2⟩

/-! ### C8 -/

theorem alookupS_cons_ne (s : String) (v : SNode) (sc : Scope) (nm : String)
    (h : ¬s = nm) : alookupS ((s, v) :: sc) nm = alookupS sc nm := by
  simp [alookupS, h]

theorem scopeUpdate_lookup (sc : Scope) (n : SNode) (pk : Option SKind) (nm : String)
    (h : ¬(bindingKind n.kind = true ∧ n.str = nm)) :
    alookupS (scopeUpdate sc n pk) nm = alookupS sc nm := by
  unfold scopeUpdate
  cases hk : n.kind
  case typedefK => exact alookupS_cons_ne _ _ _ _ (fun he => h ⟨by rw [hk]; rfl, he⟩)
  case enumK => exact alookupS_cons_ne _ _ _ _ (fun he => h ⟨by rw [hk]; rfl, he⟩)
  case wireK => exact alookupS_cons_ne _ _ _ _ (fun he => h ⟨by rw [hk]; rfl, he⟩)
  case parameterK => exact alookupS_cons_ne _ _ _ _ (fun he => h ⟨by rw [hk]; rfl, he⟩)
  case localparamK => exact alookupS_cons_ne _ _ _ _ (fun he => h ⟨by rw [hk]; rfl, he⟩)
  case structK =>
      simp only []
      split
      · split
        · exact alookupS_cons_ne _ _ _ _ (fun he => h ⟨by rw [hk]; rfl, he⟩)
        · rfl
      · rfl
  all_goals rfl

theorem stepT_avoids (nm : String) (sc : Scope) (t : Task) (ht : taskAvoids nm t) :
    ∀ t' ∈ (stepT sc t).2, taskAvoids nm t' := by
  intro t' ht'
  match t with
  | .post n pk => simp [stepT] at ht'
  | .visit n pk =>
      unfold stepT at ht'
      simp only [] at ht'
      cases hd : dotChild n with
      | some d =>
          rw [hd] at ht'
          simp only [] at ht'
          by_cases hl : (alookupS sc n.str).isNone = true
          · rw [if_pos hl] at ht'
            have he : t' = .post (dotFallback n d) pk := by simpa using ht'
            subst he
            show ¬(bindingKind (dotFallback n d).kind = true ∧ (dotFallback n d).str = nm)
            intro he2
            exact ht (.renamed n d he2.1 hd
              (by simpa [dotFallback, SNode.str] using he2.2))
          · rw [if_neg hl] at ht'
            have he : t' = .post n pk := by simpa using ht'
            subst he
            show ¬(bindingKind n.kind = true ∧ n.str = nm)
            intro he2
            exact ht (.own n he2.1 he2.2)
      | none =>
          rw [hd] at ht'
          simp only [] at ht'
          rcases List.mem_append.mp ht' with hmem | hmem
          · obtain ⟨c, hc, rfl⟩ := List.mem_map.mp hmem
            show ¬DeclaresName nm c
            intro hm
            exact ht (.child n c hc hm)
          · have he : t' = .post n pk := by simpa using hmem
            subst he
            show ¬(bindingKind n.kind = true ∧ n.str = nm)
            intro he2
            exact ht (.own n he2.1 he2.2)

theorem stepT_lookup (nm : String) (sc : Scope) (t : Task) (ht : taskAvoids nm t)
    (h : alookupS sc nm = none) : alookupS (stepT sc t).1 nm = none := by
  match t with
  | .visit n pk =>
      have hfst : (stepT sc (Task.visit n pk)).1 = sc := by
        unfold stepT
        simp only []
        cases dotChild n
        · rfl
        · simp only []
          split <;> rfl
      rw [hfst]
      exact h
  | .post n pk =>
      show alookupS (scopeUpdate sc n pk) nm = none
      rw [scopeUpdate_lookup sc n pk nm ht]
      exact h

theorem runTasks_avoid (nm : String) : ∀ (fuel : Nat) (sc : Scope) (ts : List Task),
    alookupS sc nm = none → (∀ t ∈ ts, taskAvoids nm t) →
    alookupS (runTasks sc ts fuel) nm = none := by
  intro fuel
  induction fuel with
  | zero => intro sc ts h _; cases ts <;> exact h
  | succ f ih =>
      intro sc ts h hts
      match ts with
      | [] => exact h
      | t :: rest =>
          show alookupS (runTasks (stepT sc t).1 ((stepT sc t).2 ++ rest) f) nm = none
          apply ih
          · exact stepT_lookup nm sc t (hts t (List.mem_cons_self t rest)) h
          · intro t' ht'
            rcases List.mem_append.mp ht' with hm | hm
            · exact stepT_avoids nm sc t (hts t (List.mem_cons_self t rest)) t' hm
            · exact hts t' (List.mem_cons.mpr (Or.inr hm))

theorem not_declares_ident (nm s : String) :
    ¬DeclaresName nm (SNode.mk .identK s []) := by
  intro h
  cases h
  next hbk hstr => exact Bool.noConfusion hbk
  next d hbk hd hstr => exact Bool.noConfusion hbk
  next c hdc hcm => exact absurd hcm (List.not_mem_nil c)

theorem c8modB_declares_none (nm : String) : ¬DeclaresName nm c8modB := by
  intro h
  cases h
  next hbk hstr => exact Bool.noConfusion hbk
  next d hbk hd hstr => exact Bool.noConfusion hbk
  next c hdc hcm =>
      simp only [c8modB, SNode.children, List.mem_cons, List.not_mem_nil,
        or_false] at hcm
      rcases hcm with rfl | rfl
      · exact not_declares_ident nm "\\p" hdc
      · exact not_declares_ident nm "\\w" hdc

/-- **C8 (amended).** The scope table is cleared between top-level
elaboration units: after unit `A` is fully processed the scope state is
`([], none)` (all entries and the elaboration target dropped); and for a
name declared while lowering `A`, not *declared* in unit `B` (no
scope-writing node of `B` — typedef, enum, wire, parameter, localparam or
struct — carries the name or is dot-renamed to it; `B` may freely
*reference* the name through plain identifiers), and not re-imported by
`setup_current_scope` from a package among the top nodes, a lookup of
that name at any point while lowering `B` (any fuel amount of `B`'s walk,
started from the cleared state `A` left) does not resolve. -/
theorem c8_scope_cleared_between_units
    (tops : List SNode) (A B : SNode) (st : ScopeSt) (nm : String) (fuelA : Nat)
    (hdecl : DeclaresName nm A)
    (hB : ¬DeclaresName nm B)
    (hsetup : alookupS (setup_current_scope tops B ([], none)).1 nm = none) :
    process_unit_scope tops A st fuelA = ([], none) ∧
    ∀ fuelB, alookupS
        (runTasks (setup_current_scope tops B (process_unit_scope tops A st fuelA)).1
          [.visit B none] fuelB) nm = none := by
  constructor
  · rfl
  · intro fuelB
    apply runTasks_avoid
    · exact hsetup
    · intro t ht
      have he : t = .visit B none := by simpa using ht
      subst he
      exact hB

/-- **C8 witness.** Module `\A` declares wire `\w`; module `\B` contains a
plain identifier *reference* to `\w` (and one to `\p`) but declares
neither; after `\A` the scope is cleared and `\w` resolves at no point of
`\B`'s walk — in particular not right after its reference to `\w` is
visited (fuel 5) nor at the end of the walk (fuel 6). -/
theorem c8_scope_cleared_witness :
    process_unit_scope [c8modA, c8modB] c8modA ([], none) 6 = ([], none) ∧
    alookupS (runTasks (setup_current_scope [c8modA, c8modB] c8modB
        (process_unit_scope [c8modA, c8modB] c8modA ([], none) 6)).1
      [.visit c8modB none] 5) "\\w" = none ∧
    alookupS (runTasks (setup_current_scope [c8modA, c8modB] c8modB
        (process_unit_scope [c8modA, c8modB] c8modA ([], none) 6)).1
      [.visit c8modB none] 6) "\\w" = none := by
  have hdecl : DeclaresName "\\w" c8modA :=
    .child c8modA (.mk .wireK "\\w" []) (by simp [c8modA, SNode.children])
      (.own _ rfl rfl)
  have h := c8_scope_cleared_between_units [c8modA, c8modB] c8modA c8modB
    ([], none) "\\w" 6 hdecl (c8modB_declares_none "\\w") rfl
  exact ⟨h.1, h.2 5, h.2 6⟩

/-- **C8 counterexample.** Package `\A` exports parameter `\p`: `\p` is
declared while lowering `\A`, the scope is cleared afterwards, `\p` is not
declared in module `\B` (which merely references it) — and yet, because
`setup_current_scope` re-imports every package's exports at the start of
every unit, a lookup of `\p` while lowering `\B` resolves. -/
theorem c8_counterexample_package_import :
    DeclaresName "\\p" c8pkgA ∧
    process_unit_scope [c8pkgA, c8modB] c8pkgA ([], none) 6 = ([], none) ∧
    ¬DeclaresName "\\p" c8modB ∧
    alookupS (runTasks (setup_current_scope [c8pkgA, c8modB] c8modB
        (process_unit_scope [c8pkgA, c8modB] c8pkgA ([], none) 6)).1
      [.visit c8modB none] 0) "\\p" = some (.mk .parameterK "\\p" []) :=
  ⟨.child c8pkgA (.mk .parameterK "\\p" [])
    (by simp [c8pkgA, SNode.children]) (.own _ rfl rfl), rfl,
   c8modB_declares_none "\\p", rfl⟩

/-! ### C4 -/

theorem alookupT_append_left (tn : TopNodes) (l : TopNodes) (k : String) (v : Option Module)
    (h : alookupT tn k = some v) : alookupT (tn ++ l) k = some v := by
  induction tn with
  | nil => simp [alookupT] at h
  | cons a t ih =>
      obtain ⟨k0, v0⟩ := a
      show alookupT ((k0, v0) :: (t ++ l)) k = some v
      by_cases hk : k0 = k
      · simp only [alookupT, if_pos hk] at h ⊢
        exact h
      · simp only [alookupT, if_neg hk] at h ⊢
        exact ih h

theorem alookupT_append_self (tn : TopNodes) (k : String) (v : Option Module)
    (h : alookupT tn k = none) : alookupT (tn ++ [(k, v)]) k = some v := by
  induction tn with
  | nil => simp [alookupT]
  | cons a t ih =>
      obtain ⟨k0, v0⟩ := a
      show alookupT ((k0, v0) :: (t ++ [(k, v)])) k = some v
      by_cases hk : k0 = k
      · simp only [alookupT, if_pos hk] at h
        exact Option.noConfusion h
      · simp only [alookupT, if_neg hk] at h ⊢
        exact ih h

theorem tnSet_append_fresh (tn : TopNodes) (k : String) (x v : Option Module)
    (h : alookupT tn k = none) : tnSet (tn ++ [(k, x)]) k v = tn ++ [(k, v)] := by
  induction tn with
  | nil => simp [tnSet]
  | cons a t ih =>
      obtain ⟨k0, v0⟩ := a
      show tnSet ((k0, v0) :: (t ++ [(k, x)])) k v = (k0, v0) :: (t ++ [(k, v)])
      by_cases hk : k0 = k
      · simp only [alookupT, if_pos hk] at h
        exact Option.noConfusion h
      · simp only [alookupT, if_neg hk] at h
        simp only [tnSet, if_neg hk]
        rw [ih h]

theorem tnSet_tnSet (tn : TopNodes) (k : String) (v w : Option Module) :
    tnSet (tnSet tn k v) k w = tnSet tn k w := by
  induction tn with
  | nil => simp [tnSet]
  | cons a t ih =>
      obtain ⟨k0, v0⟩ := a
      by_cases hk : k0 = k
      · simp [tnSet, hk]
      · simp only [tnSet, if_neg hk]
        rw [ih]

theorem tnSet_self (tn : TopNodes) (k : String) (v : Option Module)
    (h : alookupT tn k = some v) : tnSet tn k v = tn := by
  induction tn with
  | nil => simp [alookupT] at h
  | cons a t ih =>
      obtain ⟨k0, v0⟩ := a
      by_cases hk : k0 = k
      · simp only [alookupT, if_pos hk] at h
        have hv : v0 = v := Option.some.inj h
        simp [tnSet, hk, hv]
      · simp only [alookupT, if_neg hk] at h
        simp only [tnSet, if_neg hk]
        rw [ih h]

theorem upd_mck (p : PAssign) (c : MChild) : (upd p c).mck = c.mck := by
  unfold upd
  split <;> rfl

theorem upd_str (p : PAssign) (c : MChild) : (upd p c).str = c.str := by
  unfold upd
  split <;> rfl

theorem matchCond_upd (q p : PAssign) (c : MChild) :
    matchCond (upd q c) p = matchCond c p := by
  unfold matchCond
  rw [upd_mck, upd_str]

theorem upd_match (p : PAssign) (c : MChild) (h : matchCond c p = true) :
    upd p c = { c with value := p.value } := by
  unfold upd
  rw [if_pos h]

theorem upd_noMatch (p : PAssign) (c : MChild) (h : ¬matchCond c p = true) :
    upd p c = c := by
  unfold upd
  rw [if_neg h]

theorem upd_idem (p : PAssign) (c : MChild) : upd p (upd p c) = upd p c := by
  by_cases h : matchCond c p = true
  · rw [upd_match p c h]
    have h2 : matchCond { c with value := p.value } p = true := h
    rw [upd_match p _ h2]
  · rw [upd_noMatch p c h, upd_noMatch p c h]

theorem matchCond_str (c : MChild) (p : PAssign) (h : matchCond c p = true) :
    c.str = p.str := by
  unfold matchCond at h
  have h2 := (Bool.and_eq_true _ _).mp h
  exact beq_iff_eq.mp h2.2

theorem upd_comm (p q : PAssign) (c : MChild) (h : ¬p.str = q.str) :
    upd p (upd q c) = upd q (upd p c) := by
  by_cases hp : matchCond c p = true
  · have hq : ¬matchCond c q = true := fun hq =>
      h ((matchCond_str c p hp).symm.trans (matchCond_str c q hq))
    rw [upd_noMatch q c hq, upd_match p c hp]
    have hq2 : ¬matchCond { c with value := p.value } q = true := hq
    rw [upd_noMatch q _ hq2]
  · rw [upd_noMatch p c hp]
    by_cases hq : matchCond c q = true
    · rw [upd_match q c hq]
      have hp2 : ¬matchCond { c with value := q.value } p = true := hp
      rw [upd_noMatch p _ hp2]
    · rw [upd_noMatch q c hq, upd_noMatch p c hp]

theorem map_eq_self_of {α : Type} (l : List α) (f : α → α) (h : ∀ x ∈ l, f x = x) :
    l.map f = l := by
  induction l with
  | nil => rfl
  | cons a t ih =>
      rw [List.map_cons, h a (List.mem_cons_self a t),
        ih (fun x hx => h x (List.mem_cons.mpr (Or.inr hx)))]

theorem map_self_mem {α : Type} (l : List α) (f : α → α) (h : l.map f = l) :
    ∀ x ∈ l, f x = x := by
  induction l with
  | nil => intro x hx; exact absurd hx (List.not_mem_nil x)
  | cons a t ih =>
      intro x hx
      rw [List.map_cons] at h
      have h1 : f a = a := (List.cons.injEq _ _ _ _).mp h |>.1
      have h2 : t.map f = t := (List.cons.injEq _ _ _ _).mp h |>.2
      rcases List.mem_cons.mp hx with rfl | hx'
      · exact h1
      · exact ih h2 x hx'

theorem find?_map_upd (q : PAssign) (chs : List MChild) (p : PAssign) :
    (chs.map (upd q)).find? (fun c => matchCond c p)
      = (chs.find? (fun c => matchCond c p)).map (upd q) := by
  rw [List.find?_map]
  have hfun : ((fun c => matchCond c p) ∘ upd q) = (fun c => matchCond c p) := by
    funext c
    exact matchCond_upd q p c
  rw [hfun]

theorem chStep_none (ci : Bool) (chs : List MChild) (p : PAssign)
    (h : chs.find? (fun c => matchCond c p) = none) : chStep ci chs p = chs := by
  unfold chStep
  rw [h]

theorem chStep_skip (ci : Bool) (chs : List MChild) (p : PAssign) (c : MChild)
    (h : chs.find? (fun c => matchCond c p) = some c)
    (hk : (c.mck == MCKind.paramK && ci) = true) : chStep ci chs p = chs := by
  unfold chStep
  rw [h]
  simp only []
  rw [if_pos hk]

theorem chStep_repl (ci : Bool) (chs : List MChild) (p : PAssign) (c : MChild)
    (h : chs.find? (fun c => matchCond c p) = some c)
    (hk : ¬(c.mck == MCKind.paramK && ci) = true) :
    chStep ci chs p = chs.map (upd p) := by
  unfold chStep
  rw [h]
  simp only []
  rw [if_neg hk]

theorem chStep_fix_self (ci : Bool) (chs : List MChild) (p : PAssign) :
    chStep ci (chStep ci chs p) p = chStep ci chs p := by
  cases hf : chs.find? (fun c => matchCond c p) with
  | none => rw [chStep_none ci chs p hf, chStep_none ci chs p hf]
  | some c =>
      by_cases hk : (c.mck == MCKind.paramK && ci) = true
      · rw [chStep_skip ci chs p c hf hk, chStep_skip ci chs p c hf hk]
      · rw [chStep_repl ci chs p c hf hk]
        have hf2 : (chs.map (upd p)).find? (fun c => matchCond c p) = some (upd p c) := by
          rw [find?_map_upd, hf]
          rfl
        have hk2 : ¬((upd p c).mck == MCKind.paramK && ci) = true := by
          rw [upd_mck]
          exact hk
        rw [chStep_repl ci _ p (upd p c) hf2 hk2, List.map_map]
        have hcomp : (upd p ∘ upd p) = upd p := by
          funext c2
          exact upd_idem p c2
        rw [hcomp]

theorem chStep_fix_of_ne (ci : Bool) (X : List MChild) (p q : PAssign) (hne : ¬p.str = q.str)
    (hfix : chStep ci X p = X) : chStep ci (chStep ci X q) p = chStep ci X q := by
  cases hfq : X.find? (fun c => matchCond c q) with
  | none => rw [chStep_none ci X q hfq]; exact hfix
  | some cq =>
      by_cases hkq : (cq.mck == MCKind.paramK && ci) = true
      · rw [chStep_skip ci X q cq hfq hkq]; exact hfix
      · rw [chStep_repl ci X q cq hfq hkq]
        cases hfp : X.find? (fun c => matchCond c p) with
        | none =>
            have hfp2 : (X.map (upd q)).find? (fun c => matchCond c p) = none := by
              rw [find?_map_upd, hfp]
              rfl
            exact chStep_none ci _ p hfp2
        | some cp =>
            have hfp2 : (X.map (upd q)).find? (fun c => matchCond c p) = some (upd q cp) := by
              rw [find?_map_upd, hfp]
              rfl
            by_cases hkp : (cp.mck == MCKind.paramK && ci) = true
            · exact chStep_skip ci _ p (upd q cp) hfp2 (by rw [upd_mck]; exact hkp)
            · have hXfix : X.map (upd p) = X := by
                have h3 := chStep_repl ci X p cp hfp hkp
                rw [h3] at hfix
                exact hfix
              have hpt : ∀ c ∈ X, upd p c = c := map_self_mem X (upd p) hXfix
              rw [chStep_repl ci _ p (upd q cp) hfp2 (by rw [upd_mck]; exact hkp),
                List.map_map]
              have hcomm : (upd p ∘ upd q) = (upd q ∘ upd p) := by
                funext c2
                exact upd_comm p q c2 hne
              rw [hcomm, ← List.map_map, map_eq_self_of X (upd p) hpt]

theorem chStep_fix_fold (ci : Bool) (p : PAssign) :
    ∀ (ps : List PAssign), (∀ q ∈ ps, ¬p.str = q.str) →
    ∀ X, chStep ci X p = X →
    chStep ci (ps.foldl (chStep ci) X) p = ps.foldl (chStep ci) X := by
  intro ps
  induction ps with
  | nil => intro _ X hX; exact hX
  | cons q qs ih =>
      intro hne X hX
      show chStep ci (qs.foldl (chStep ci) (chStep ci X q)) p
        = qs.foldl (chStep ci) (chStep ci X q)
      exact ih (fun r hr => hne r (List.mem_cons.mpr (Or.inr hr))) (chStep ci X q)
        (chStep_fix_of_ne ci X p q (hne q (List.mem_cons_self q qs)) hX)

theorem chFold_idem (ci : Bool) :
    ∀ (ps : List PAssign), (ps.map PAssign.str).Nodup →
    ∀ chs : List MChild,
    ps.foldl (chStep ci) (ps.foldl (chStep ci) chs) = ps.foldl (chStep ci) chs := by
  intro ps
  induction ps with
  | nil => intro _ chs; rfl
  | cons p qs ih =>
      intro hnd chs
      rw [List.map_cons, List.nodup_cons] at hnd
      have hne : ∀ q ∈ qs, ¬p.str = q.str := by
        intro q hq heq
        exact hnd.1 (by rw [heq]; exact List.mem_map_of_mem _ hq)
      have hA : chStep ci (qs.foldl (chStep ci) (chStep ci chs p)) p
          = qs.foldl (chStep ci) (chStep ci chs p) :=
        chStep_fix_fold ci p qs hne (chStep ci chs p) (chStep_fix_self ci chs p)
      show qs.foldl (chStep ci) (chStep ci (qs.foldl (chStep ci) (chStep ci chs p)) p)
          = qs.foldl (chStep ci) (chStep ci chs p)
      rw [hA]
      exact ih hnd.2 (chStep ci chs p)

theorem paramStep_module (ci : Bool) (acc : Module × List PAssign) (p : PAssign) :
    (paramStep ci acc p).1 = { acc.1 with children := chStep ci acc.1.children p } := by
  unfold paramStep chStep
  cases hf : acc.1.children.find? (fun c => matchCond c p) with
  | none =>
      simp only []
      split <;> rfl
  | some c =>
      simp only []
      by_cases hk1 : (c.mck == MCKind.paramK) = true
      · cases ci with
        | true =>
            simp only [hk1, Bool.and_true, if_true]
            split <;> rfl
        | false =>
            simp only [hk1, Bool.and_false]
            rfl
      · have hk1f : (c.mck == MCKind.paramK) = false := by
          cases h2 : (c.mck == MCKind.paramK)
          · rfl
          · exact absurd h2 hk1
        simp only [hk1f, Bool.false_and, if_false]
        rfl

theorem foldl_paramStep_module (ci : Bool) :
    ∀ (ps : List PAssign) (m : Module) (out : List PAssign),
    (ps.foldl (paramStep ci) (m, out)).1
      = { m with children := ps.foldl (chStep ci) m.children } := by
  intro ps
  induction ps with
  | nil => intro m out; rfl
  | cons p qs ih =>
      intro m out
      show (qs.foldl (paramStep ci) (paramStep ci (m, out) p)).1 = _
      have h1 : paramStep ci (m, out) p
          = ({ m with children := chStep ci m.children p }, (paramStep ci (m, out) p).2) :=
        Prod.ext (paramStep_module ci (m, out) p) rfl
      rw [h1, ih]
      rfl

theorem specModule_spec (m : Module) (mn : String) (ps : List PAssign) (ci : Bool)
    (hm : m.partialAttr = none) :
    specModule m mn ps ci =
      ⟨mn, none, ci || m.whitebox, true, ps.foldl (chStep ci) m.children⟩ := by
  obtain ⟨s0, pa0, wb0, k0, ch0⟩ := m
  have hpa : pa0 = none := hm
  subst hpa
  unfold specModule
  simp only []
  rw [foldl_paramStep_module]
  cases ci <;> rfl

theorem tnGet_none (tn : TopNodes) (k : String) (h : alookupT tn k = none) :
    tnGet tn k = (none, tn ++ [(k, none)]) := by
  unfold tnGet
  rw [h]

theorem tnGet_some (tn : TopNodes) (k : String) (v : Option Module)
    (h : alookupT tn k = some v) : tnGet tn k = (v, tn) := by
  unfold tnGet
  rw [h]

theorem specModule_idem (g : Module) (mn : String) (ps : List PAssign) (ci : Bool)
    (hg : g.partialAttr = none) (hnd : (ps.map PAssign.str).Nodup) :
    specModule (specModule g mn ps ci) mn ps ci = specModule g mn ps ci := by
  rw [specModule_spec g mn ps ci hg]
  rw [specModule_spec _ mn ps ci rfl]
  simp only []
  rw [chFold_idem ci ps hnd g.children]
  cases ci <;> rfl

theorem string_mk_inj (s t : String) (h : s.data = t.data) : s = t := by
  cases s
  cases t
  exact congrArg String.mk h

theorem deriveName_ne_type (sha1 : String → String) (cs : List Char) (mp : String)
    (hmp : ¬mp = "") :
    ¬deriveName sha1 ⟨'\\' :: cs⟩ mp = ⟨'\\' :: cs⟩ := by
  unfold deriveName
  by_cases hl : 60 < mp.length
  · rw [if_pos hl]
    intro h
    have h0 := congrArg (fun s => s.data.get? 0) h
    have h0' : some '$' = some '\\' := h0
    exact absurd (Option.some.inj h0') (by decide)
  · rw [if_neg hl, if_pos hmp]
    intro h
    have h0 := congrArg (fun s => s.data.get? 0) h
    have h0' : some '$' = some '\\' := h0
    exact absurd (Option.some.inj h0') (by decide)

theorem deriveName_inj (sha1 : String → String) (cs : List Char) (mp mp2 : String)
    (hmpne : ¬mp = "") (hmp2 : ¬mp2 = "") (hne12 : ¬mp = mp2)
    (hpair : sha1 mp = sha1 mp2 → mp = mp2) :
    ¬deriveName sha1 ⟨'\\' :: cs⟩ mp = deriveName sha1 ⟨'\\' :: cs⟩ mp2 := by
  unfold deriveName
  by_cases h1 : 60 < mp.length <;> by_cases h2 : 60 < mp2.length
  · rw [if_pos h1, if_pos h2]
    intro h
    have hd := congrArg String.data h
    rw [String.data_append, String.data_append, String.data_append,
      String.data_append] at hd
    have hc := List.append_cancel_right hd
    have hc2 := List.append_cancel_left hc
    exact hne12 (hpair (string_mk_inj _ _ hc2))
  · rw [if_pos h1, if_neg h2, if_pos hmp2]
    intro h
    have h8 := congrArg (fun s => s.data.get? 8) h
    have h8' : some '$' = some '\\' := h8
    exact absurd (Option.some.inj h8') (by decide)
  · rw [if_neg h1, if_pos hmpne, if_pos h2]
    intro h
    have h8 := congrArg (fun s => s.data.get? 8) h
    have h8' : some '\\' = some '$' := h8
    exact absurd (Option.some.inj h8') (by decide)
  · rw [if_neg h1, if_pos hmpne, if_neg h2, if_pos hmp2]
    intro h
    have hd := congrArg String.data h
    rw [String.data_append, String.data_append, String.data_append,
      String.data_append] at hd
    have hc := List.append_cancel_left hd
    exact hne12 (string_mk_inj _ _ hc)

theorem pmi_fresh (sha1 : String → String) (tn : TopNodes) (type : String)
    (ps : List PAssign) (ci : Bool) (g : Module)
    (hg : alookupT tn type = some (some g))
    (hfresh : alookupT tn (deriveName sha1 type (String.join (ps.map serializeOne))) = none) :
    process_module_instance sha1 tn ⟨type, ps, ci⟩ =
      (tn ++ [(deriveName sha1 type (String.join (ps.map serializeOne)),
          some (specModule g (deriveName sha1 type (String.join (ps.map serializeOne))) ps ci))],
       parasetsOf g (deriveName sha1 type (String.join (ps.map serializeOne))) ps ci) := by
  unfold process_module_instance
  simp only []
  rw [hg]
  simp only [Option.isSome_some, if_true]
  rw [tnGet_none tn _ hfresh]
  simp only []
  rw [tnGet_some _ type (some g)
    (alookupT_append_left tn _ type (some g) hg)]
  simp only []
  unfold finishInstance
  rw [tnSet_tnSet, tnSet_append_fresh tn _ none _ hfresh]

theorem pmi_found (sha1 : String → String) (tn : TopNodes) (type : String)
    (ps : List PAssign) (ci : Bool) (gv : Option Module) (spec : Module)
    (hg : alookupT tn type = some gv)
    (hfound : alookupT tn (deriveName sha1 type (String.join (ps.map serializeOne)))
        = some (some spec)) :
    process_module_instance sha1 tn ⟨type, ps, ci⟩ =
      (tnSet tn (deriveName sha1 type (String.join (ps.map serializeOne)))
        (some (specModule spec (deriveName sha1 type (String.join (ps.map serializeOne))) ps ci)),
       parasetsOf spec (deriveName sha1 type (String.join (ps.map serializeOne))) ps ci) := by
  unfold process_module_instance
  simp only []
  rw [hg]
  simp only [Option.isSome_some, if_true]
  rw [tnGet_some tn _ (some spec) hfound]
  simp only []
  unfold finishInstance
  rw [tnSet_tnSet]

/-- **C4.** Specializing a generic module: with the generic `type` present
in the registry and a non-default (non-empty) serialized parameter map
whose derived name is not yet registered, one instantiation registers
exactly one specialized entity under the derived name (the registry is
consulted under that name before any clone); a second instantiation with
the identical parameter map leaves the registry unchanged; the derived
names of two different non-default parameter maps are distinct (given the
hash distinguishes the two serializations) and distinct from the generic
name; and the generic entry itself is never mutated. -/
theorem c4_unique_specialization
    (sha1 : String → String) (tn : TopNodes) (type : String) (cs : List Char)
    (g : Module) (ps : List PAssign) (ci : Bool) (mp mp2 mn : String)
    (htype : type = ⟨'\\' :: cs⟩)
    (hg : alookupT tn type = some (some g))
    (hgp : g.partialAttr = none)
    (hnd : (ps.map PAssign.str).Nodup)
    (hmp : mp = String.join (ps.map serializeOne))
    (hmpne : ¬mp = "")
    (hmn : mn = deriveName sha1 type mp)
    (hfresh : alookupT tn mn = none)
    (hmp2 : ¬mp2 = "") (hne12 : ¬mp = mp2)
    (hpair : sha1 mp = sha1 mp2 → mp = mp2) :
    (∃ spec, alookupT (process_module_instance sha1 tn ⟨type, ps, ci⟩).1 mn
        = some (some spec) ∧ spec.str = mn) ∧
    (process_module_instance sha1 (process_module_instance sha1 tn ⟨type, ps, ci⟩).1
        ⟨type, ps, ci⟩).1
      = (process_module_instance sha1 tn ⟨type, ps, ci⟩).1 ∧
    ¬mn = deriveName sha1 type mp2 ∧
    ¬mn = type ∧
    alookupT (process_module_instance sha1 tn ⟨type, ps, ci⟩).1 type = some (some g) := by
  subst hmp
  subst hmn
  have hrun1 := pmi_fresh sha1 tn type ps ci g hg hfresh
  refine ⟨⟨specModule g (deriveName sha1 type (String.join (ps.map serializeOne))) ps ci,
      ?_, ?_⟩, ?_, ?_, ?_, ?_⟩
  · rw [hrun1]
    exact alookupT_append_self tn _ _ hfresh
  · rw [specModule_spec g _ ps ci hgp]
  · rw [hrun1]
    have hg2 : alookupT (tn ++ [(deriveName sha1 type (String.join (ps.map serializeOne)),
        some (specModule g (deriveName sha1 type (String.join (ps.map serializeOne))) ps ci))])
        type = some (some g) :=
      alookupT_append_left tn _ type (some g) hg
    have hfound : alookupT (tn ++ [(deriveName sha1 type (String.join (ps.map serializeOne)),
        some (specModule g (deriveName sha1 type (String.join (ps.map serializeOne))) ps ci))])
        (deriveName sha1 type (String.join (ps.map serializeOne)))
        = some (some (specModule g (deriveName sha1 type
            (String.join (ps.map serializeOne))) ps ci)) :=
      alookupT_append_self tn _ _ hfresh
    show (process_module_instance sha1 _ ⟨type, ps, ci⟩).1 = _
    rw [pmi_found sha1 _ type ps ci (some g) _ hg2 hfound]
    show tnSet _ _ (some (specModule (specModule g _ ps ci) _ ps ci)) = _
    rw [specModule_idem g _ ps ci hgp hnd]
    exact tnSet_self _ _ _ hfound
  · subst htype
    exact deriveName_inj sha1 cs _ mp2 hmpne hmp2 hne12 hpair
  · subst htype
    exact deriveName_ne_type sha1 cs _ hmpne
  · rw [hrun1]
    exact alookupT_append_left tn _ type (some g) hg

/-- **C4 witness.** Generic `\ff` with parameter map `\WIDTH=16`
(cell flag clear): one specialized entity `$paramod\ff\WIDTH=16` is
registered, a second identical instantiation changes nothing, the name
differs from the one derived for `\WIDTH=32` and from `\ff`, and the
generic entry is untouched. -/
theorem c4_unique_specialization_witness :
    (∃ spec, alookupT (process_module_instance c4hash [("\\ff", some c4gen)]
        ⟨"\\ff", [⟨"\\WIDTH", ⟨"16", 5, 16⟩⟩], false⟩).1 "$paramod\\ff\\WIDTH=16"
      = some (some spec) ∧ spec.str = "$paramod\\ff\\WIDTH=16") ∧
    (process_module_instance c4hash
        (process_module_instance c4hash [("\\ff", some c4gen)]
          ⟨"\\ff", [⟨"\\WIDTH", ⟨"16", 5, 16⟩⟩], false⟩).1
        ⟨"\\ff", [⟨"\\WIDTH", ⟨"16", 5, 16⟩⟩], false⟩).1
      = (process_module_instance c4hash [("\\ff", some c4gen)]
          ⟨"\\ff", [⟨"\\WIDTH", ⟨"16", 5, 16⟩⟩], false⟩).1 ∧
    ¬("$paramod\\ff\\WIDTH=16" : String) = deriveName c4hash "\\ff" "\\WIDTH=32" ∧
    ¬("$paramod\\ff\\WIDTH=16" : String) = "\\ff" ∧
    alookupT (process_module_instance c4hash [("\\ff", some c4gen)]
        ⟨"\\ff", [⟨"\\WIDTH", ⟨"16", 5, 16⟩⟩], false⟩).1 "\\ff" = some (some c4gen) :=
  c4_unique_specialization c4hash [("\\ff", some c4gen)] "\\ff" ['f', 'f'] c4gen
    [⟨"\\WIDTH", ⟨"16", 5, 16⟩⟩] false "\\WIDTH=16" "\\WIDTH=32" "$paramod\\ff\\WIDTH=16"
    (by decide) rfl rfl (by decide) (by decide) (by decide) (by decide) rfl
    (by decide) (by decide) (fun hx => absurd hx (by decide))

end UhdmVerify
